import Mathlib

/-!
Verification of the single-file CRYSTALS-Kyber-style PKE (TypeScript, `src/index.ts`)
against its natural-language specification.

The TypeScript source is shallowly embedded below.  JavaScript numbers are
modelled as exact rationals (`ℚ`): every value the program manipulates — the
integers drawn by sampling and the half-integers produced by the `q / 2`
message scaling — is exactly representable in binary64, and the operations
used (`+ - *`, `%`, `Math.floor`, comparisons) are exact on those values.
JavaScript's `%` is the truncated remainder (`jsMod`), `Math.floor` is `⌊·⌋`.
Functions that can throw (`addMatrices`, `subtractMatrices`,
`multiplyMatrices`, and the message-level routines built on them) are
embedded as `Except String` values; the error strings are the source's
exception messages.  Strings are modelled as their `charCodeAt` sequences
(`List ℕ`), and the nondeterministic `Math.random()` sampling is replaced by
explicit randomness parameters, so every function is deterministic.
-/

namespace Kyber

/-- Truncation toward zero, as JavaScript's division-then-truncation does in
the remainder operator: floor for nonnegative, ceiling for negative. -/
def jsTrunc (x : ℚ) : ℤ := if 0 ≤ x then ⌊x⌋ else ⌈x⌉

/-- JavaScript's `%`: the remainder `a - m * trunc (a / m)`, with the sign of
the dividend.  (JavaScript yields `NaN` for `m = 0`; this model then returns
`a`, a case no claim exercises.) -/
def jsMod (a m : ℚ) : ℚ := a - m * (jsTrunc (a / m) : ℚ)

/-- `Math.floor`, kept inside `ℚ` as the source keeps its numbers. -/
def mathFloor (x : ℚ) : ℚ := (⌊x⌋ : ℚ)

/-- Source `type Polynomial = { coefficients: number[] }`. -/
structure Polynomial where
  coefficients : List ℚ
deriving DecidableEq

/-- Source `type PolynomialMatrix = Polynomial[][]`. -/
abbrev PolynomialMatrix := List (List Polynomial)

/-- Source `type EncryptedBlock = {u, v}`. -/
structure EncryptedBlock where
  u : PolynomialMatrix
  v : PolynomialMatrix
deriving DecidableEq

/-- Source `type CrystalsKyberPublicKey = {t, A}`. -/
structure CrystalsKyberPublicKey where
  t : PolynomialMatrix
  A : PolynomialMatrix
deriving DecidableEq

/-- Source `type CrystalsKyberPrivateKey = {s}`. -/
structure CrystalsKyberPrivateKey where
  s : PolynomialMatrix
deriving DecidableEq

/-- Source `type CrystalsKyberKeys = {pKey, sKey}`. -/
structure CrystalsKyberKeys where
  pKey : CrystalsKyberPublicKey
  sKey : CrystalsKyberPrivateKey
deriving DecidableEq

instance {ε α : Type} [DecidableEq ε] [DecidableEq α] : DecidableEq (Except ε α) := fun x y =>
  match x, y with
  | .error a, .error b =>
    if h : a = b then .isTrue (by rw [h]) else .isFalse (by intro hc; cases hc; exact h rfl)
  | .error _, .ok _ => .isFalse (by intro hc; cases hc)
  | .ok _, .error _ => .isFalse (by intro hc; cases hc)
  | .ok a, .ok b =>
    if h : a = b then .isTrue (by rw [h]) else .isFalse (by intro hc; cases hc; exact h rfl)

/-- Source `reduceToBinary(value, minValue, maxValue)`:
`Math.abs(value) > Math.floor(maxValue / 2) ? 1 : 0`. -/
def reduceToBinary (value minValue maxValue : ℚ) : ℚ :=
  if |value| > mathFloor (maxValue / 2) then 1 else 0

/-- Source `symmetricValueModuloQ(asymmetricValueModuloQ, moduloQ)`: the raw
JavaScript remainder, shifted by the modulus once when it falls outside
`[-⌊q/2⌋, ⌊q/2⌋]`. -/
def symmetricValueModuloQ (asymmetricValueModuloQ moduloQ : ℚ) : ℚ :=
  let r := jsMod asymmetricValueModuloQ moduloQ
  if r < 0 then
    (if r < - mathFloor (moduloQ / 2) then r + moduloQ else r)
  else
    (if r > mathFloor (moduloQ / 2) then r - moduloQ else r)

/-- The trailing-zero-popping inner `while` of `dividePolynomials`, acting on
the reversed coefficient list. -/
def trimTrailingZeros (l : List ℚ) : List ℚ :=
  (l.reverse.dropWhile (fun c => decide (c = 0))).reverse

/-- One pass of the outer `while` of `dividePolynomials`: subtract the scaled
divisor at offset `degreeDiff`, re-centering every touched coefficient.  The
loop body reads `leadingCoeff` from the original leading coefficient before
any mutation, and iteration `i` writes only index `degreeDiff + i`, so the
sequential JavaScript mutation equals this positional map. -/
def divideStep (coeffs divisorCoeffs : List ℚ) (moduloQ : ℚ) : List ℚ :=
  let divisorDegree := divisorCoeffs.length - 1
  let divisorLeadingCoeff := divisorCoeffs.getD divisorDegree 0
  let degreeDiff := coeffs.length - divisorCoeffs.length
  let leadingCoeff := mathFloor ((coeffs.getD (coeffs.length - 1) 0) / divisorLeadingCoeff)
  (List.range coeffs.length).map (fun i =>
    if degreeDiff ≤ i then
      symmetricValueModuloQ
        ((coeffs.getD i 0) -
          symmetricValueModuloQ ((divisorCoeffs.getD (i - degreeDiff) 0) * leadingCoeff) moduloQ)
        moduloQ
    else coeffs.getD i 0)

/-- The outer `while` of `dividePolynomials`, with explicit fuel.  For the
modulus polynomials `x^n + 1` used by this program every productive pass
zeroes the leading coefficient and shortens the list, so `coeffs.length` fuel
is never exhausted; on degenerate divisors where the source would loop
forever, the model instead returns the current remainder. -/
def divideLoop (divisorCoeffs : List ℚ) (moduloQ : ℚ) : ℕ → List ℚ → List ℚ
  | 0, coeffs => coeffs
  | fuel + 1, coeffs =>
    if divisorCoeffs.length ≤ coeffs.length then
      divideLoop divisorCoeffs moduloQ fuel (trimTrailingZeros (divideStep coeffs divisorCoeffs moduloQ))
    else coeffs

/-- Source `dividePolynomials(dividend, dividingPolynomial, moduloQ)`:
synthetic long division in centered arithmetic, returning the remainder. -/
def dividePolynomials (dividend dividingPolynomial : Polynomial) (moduloQ : ℚ) : Polynomial :=
  ⟨divideLoop dividingPolynomial.coefficients moduloQ
    dividend.coefficients.length dividend.coefficients⟩

/-- The bits of the padding byte `0x80` (and of any byte), most significant
first: `(byte >> bit) & 1` for `bit = 7 .. 0`, as a rational 0/1 coefficient. -/
def byteToBits (byte : ℕ) : List ℚ :=
  ((List.range 8).reverse).map (fun bit => (((byte >>> bit) &&& 1 : ℕ) : ℚ))

/-- Source `addPaddingToPolynomialBlocks(polynomial, blockSize)`: push the
block if already full, append the bits of `0x80`, push again if that filled
the block exactly, zero-fill what remains, and push the final block. -/
def addPaddingToPolynomialBlocks (polynomial : Polynomial) (blockSize : ℕ) : List Polynomial :=
  let paddingByte := 0x80
  let currentBlock0 := polynomial.coefficients
  let st1 : List Polynomial × List ℚ :=
    if currentBlock0.length = blockSize then ([⟨currentBlock0⟩], []) else ([], currentBlock0)
  let currentBlock2 := st1.2 ++ byteToBits paddingByte
  let st3 : List Polynomial × List ℚ :=
    if currentBlock2.length = blockSize then (st1.1 ++ [⟨currentBlock2⟩], []) else (st1.1, currentBlock2)
  let currentBlock4 :=
    if st3.2.length < blockSize then st3.2 ++ List.replicate (blockSize - st3.2.length) 0 else st3.2
  st3.1 ++ [⟨currentBlock4⟩]

/-- The scan of `removePaddingFromPolynomialBlocks`, on the reversed
coefficient list: pop zeros; on a 1, pop it and stop; on anything else stop. -/
def dropPaddingRev : List ℚ → List ℚ
  | [] => []
  | c :: rest => if c = 0 then dropPaddingRev rest else if c = 1 then rest else c :: rest

/-- Source `removePaddingFromPolynomialBlocks(polynomial)`. -/
def removePaddingFromPolynomialBlocks (polynomial : Polynomial) : Polynomial :=
  ⟨(dropPaddingRev polynomial.coefficients.reverse).reverse⟩

/-- One step of the bit-packing loop of `textToPolynomialBlocks`: before each
bit is appended, a full current block is pushed and a fresh one started. -/
def pushBit (blockSize : ℕ) (st : List Polynomial × List ℚ) (bit : ℚ) :
    List Polynomial × List ℚ :=
  if st.2.length = blockSize then (st.1 ++ [⟨st.2⟩], [bit]) else (st.1, st.2 ++ [bit])

/-- The body of `textToPolynomialBlocks` on an already-flattened bit stream:
pack bits into blocks of `blockSize`, then append the padded final block(s). -/
def bitsToBlocks (bits : List ℚ) (blockSize : ℕ) : List Polynomial :=
  let st := bits.foldl (pushBit blockSize) ([], [])
  st.1 ++ addPaddingToPolynomialBlocks ⟨st.2⟩ blockSize

/-- Source `textToPolynomialBlocks(text, blockSize)`: each character code is
expanded to its 8 bits (most significant first) and the combined bit stream
is packed and padded.  The text is modelled as its `charCodeAt` sequence. -/
def textToPolynomialBlocks (text : List ℕ) (blockSize : ℕ) : List Polynomial :=
  bitsToBlocks (text.flatMap byteToBits) blockSize

/-- The value a 0/1 coefficient contributes when OR-ed into `currentByte`
(the source's `Number(block.coefficients[i])` under JavaScript's 32-bit `|`,
restricted to the bit-valued coefficients decryption produces). -/
def bitVal (c : ℚ) : ℕ := if c = 1 then 1 else 0

/-- One step of the byte-reassembly loop of `polynomialBlocksToText`: shift
the coefficient (a 0/1 bit) into `currentByte`, emitting a byte whenever the
in-block index reaches a multiple of 8. -/
def polyToBytesStep (st : List ℕ × ℕ) (p : ℕ × ℚ) : List ℕ × ℕ :=
  let currentByte := (st.2 <<< 1) ||| bitVal p.2
  if (p.1 + 1) % 8 = 0 then (st.1 ++ [currentByte], 0) else (st.1, currentByte)

/-- Source `polynomialBlocksToText(blocks, blockSize)`: per block, rebuild
bytes from each aligned group of 8 coefficients (`currentByte` and the index
reset at every block; a block's trailing sub-byte remainder is dropped).  The
`blockSize` parameter is unused, as in the source. -/
def polynomialBlocksToText (blocks : List Polynomial) (blockSize : ℕ) : List ℕ :=
  blocks.flatMap (fun block => (block.coefficients.enum.foldl polyToBytesStep ([], 0)).1)

/-- The exception message of `addMatrices` and `subtractMatrices`. -/
def dimensionMismatchMsg : String := "The dimensions of the matrices do not match."

/-- The exception message of `multiplyMatrices`. -/
def innerDimensionMsg : String :=
  "The number of columns in the first matrix must be equal to the number of rows in the second matrix."

/-- The `TypeError` JavaScript raises when a property of `undefined` is read
(an out-of-bounds matrix row or block). -/
def typeErrorMsg : String := "TypeError: Cannot read properties of undefined"

/-- Source `addMatrices(A, B, moduloQ, modulusPolynomial)`: guard the shapes
(`A[0].length` on an empty matrix is JavaScript's `TypeError`), then add
entrywise — missing coefficients read as 0 via `|| 0` — re-center each sum
and reduce each entry by the modulus polynomial.  Entry lookups inside the
map use 0/empty defaults where JavaScript would fault on a ragged matrix, a
case no well-formed input reaches. -/
def addMatrices (A B : PolynomialMatrix) (moduloQ : ℚ) (modulusPolynomial : Polynomial) :
    Except String PolynomialMatrix :=
  if A.length ≠ B.length then .error dimensionMismatchMsg
  else
    match A, B with
    | [], _ => .error typeErrorMsg
    | _, [] => .error typeErrorMsg
    | a0 :: _, b0 :: _ =>
      if a0.length ≠ b0.length then .error dimensionMismatchMsg
      else
        .ok ((List.range A.length).map (fun i =>
          let row := A.getD i []
          (List.range row.length).map (fun j =>
            let polyA := row.getD j ⟨[]⟩
            let polyB := (B.getD i []).getD j ⟨[]⟩
            let maxLength := max polyA.coefficients.length polyB.coefficients.length
            let coefficients := (List.range maxLength).map (fun idx =>
              symmetricValueModuloQ
                ((polyA.coefficients.getD idx 0) + (polyB.coefficients.getD idx 0)) moduloQ)
            dividePolynomials ⟨coefficients⟩ modulusPolynomial moduloQ)))

/-- Source `subtractMatrices(A, B, moduloQ, modulusPolynomial)`: as
`addMatrices` with entrywise difference. -/
def subtractMatrices (A B : PolynomialMatrix) (moduloQ : ℚ) (modulusPolynomial : Polynomial) :
    Except String PolynomialMatrix :=
  if A.length ≠ B.length then .error dimensionMismatchMsg
  else
    match A, B with
    | [], _ => .error typeErrorMsg
    | _, [] => .error typeErrorMsg
    | a0 :: _, b0 :: _ =>
      if a0.length ≠ b0.length then .error dimensionMismatchMsg
      else
        .ok ((List.range A.length).map (fun i =>
          let row := A.getD i []
          (List.range row.length).map (fun j =>
            let polyA := row.getD j ⟨[]⟩
            let polyB := (B.getD i []).getD j ⟨[]⟩
            let maxLength := max polyA.coefficients.length polyB.coefficients.length
            let coefficients := (List.range maxLength).map (fun idx =>
              symmetricValueModuloQ
                ((polyA.coefficients.getD idx 0) - (polyB.coefficients.getD idx 0)) moduloQ)
            dividePolynomials ⟨coefficients⟩ modulusPolynomial moduloQ)))

/-- The schoolbook convolution inside `multiplyMatrices`: coefficient `m` of
the product accumulates `a[i] * b[m - i]`.  The product list has length
`a.length + b.length - 1` (with JavaScript's `Array.from({length: -1})`
yielding `[]`, matching truncated subtraction). -/
def convolve (a b : List ℚ) : List ℚ :=
  (List.range (a.length + b.length - 1)).map (fun m =>
    ((List.range a.length).map (fun i =>
      if i ≤ m ∧ m - i < b.length then (a.getD i 0) * (b.getD (m - i) 0) else 0)).sum)

/-- Source `multiplyMatrices(A, B, moduloQ, modulusPolynomial)`: after the
inner-dimension guard (reading `A[0]`/`B[0]` of an empty matrix is the
JavaScript `TypeError`), each output entry accumulates the convolutions over
`k` with re-centered addition at every step and is reduced once at the end. -/
def multiplyMatrices (A B : PolynomialMatrix) (moduloQ : ℚ) (modulusPolynomial : Polynomial) :
    Except String PolynomialMatrix :=
  match A with
  | [] => .error typeErrorMsg
  | a0 :: _ =>
    if a0.length ≠ B.length then .error innerDimensionMsg
    else
      match B with
      | [] => .error typeErrorMsg
      | b0 :: _ =>
        .ok ((List.range A.length).map (fun i =>
          (List.range b0.length).map (fun j =>
            let acc := (List.range B.length).foldl (fun acc kk =>
              let polyA := (A.getD i []).getD kk ⟨[]⟩
              let polyB := (B.getD kk []).getD j ⟨[]⟩
              let productCoefficients := convolve polyA.coefficients polyB.coefficients
              let maxLength := max acc.length productCoefficients.length
              (List.range maxLength).map (fun idx =>
                symmetricValueModuloQ
                  ((acc.getD idx 0) + (productCoefficients.getD idx 0)) moduloQ)) ([] : List ℚ)
            dividePolynomials ⟨acc⟩ modulusPolynomial moduloQ)))

/-- Source `transposeMatrix(matrix)`.  (JavaScript faults on an empty matrix
when reading `matrix[0].length`; the model returns the empty matrix, a case
no claim exercises.) -/
def transposeMatrix (matrix : PolynomialMatrix) : PolynomialMatrix :=
  (List.range (matrix.headD []).length).map (fun j =>
    (List.range matrix.length).map (fun i => (matrix.getD i []).getD j ⟨[]⟩))

/-- Active parameter preset `Customized` of the source: the working modulus. -/
def q : ℚ := 3329

/-- Ring degree of the active preset. -/
def n : ℕ := 256

/-- Module rank of the active preset. -/
def k : ℕ := 4

/-- Secret-noise bound eta1 of the active preset. -/
def n1 : ℕ := 2

/-- Encryption-noise bound eta2 of the active preset. -/
def n2 : ℕ := 2

/-- The modulus polynomial `x^deg + 1` of the source: an array of `deg + 1`
zeros with 1 written at positions 0 and `deg`, for a general degree. -/
def kyberModulusPolynomial (deg : ℕ) : Polynomial :=
  ⟨(List.range (deg + 1)).map (fun i => if i = 0 ∨ i = deg then (1 : ℚ) else 0)⟩

/-- The source's global `modulusPolynomial`, built from the active `n`. -/
def modulusPolynomial : Polynomial := kyberModulusPolynomial n

/-- The three matrices `crystalsKyber_encrypt` samples, in sampling order
(`r`, then `e1`, then `e2`), made an explicit input. -/
structure EncryptRandomness where
  r : PolynomialMatrix
  e1 : PolynomialMatrix
  e2 : PolynomialMatrix
deriving DecidableEq

/-- Source `crystalsKyber_generateKeys()`, with the sampled `s`, `e`, `A`
supplied explicitly: `t = A·s + e`, public key `(t, A)`, private key `s`. -/
def crystalsKyber_generateKeys (s e A : PolynomialMatrix) : Except String CrystalsKyberKeys := do
  let As ← multiplyMatrices A s q modulusPolynomial
  let t ← addMatrices As e q modulusPolynomial
  .ok ⟨⟨t, A⟩, ⟨s⟩⟩

/-- The message scaling line of `crystalsKyber_encrypt`:
`msg.coefficients.map(coeff => coeff * (q/2))`.  Note `q / 2` is JavaScript
real division: `1664.5`, not `⌊q/2⌋`. -/
def encryptMsgScaled (msg : Polynomial) : Polynomial :=
  ⟨msg.coefficients.map (fun coeff => coeff * (q / 2))⟩

/-- Source `crystalsKyber_encrypt(msg, pKey)` with the sampled noise explicit:
`u = Aᵀ·r + e1`, `v = tᵀ·r + e2 + m_scaled`. -/
def crystalsKyber_encrypt (msg : Polynomial) (pKey : CrystalsKyberPublicKey)
    (rnd : EncryptRandomness) : Except String EncryptedBlock := do
  let msgScaled := encryptMsgScaled msg
  let matrixMsgScaled : PolynomialMatrix := [[msgScaled]]
  let mu ← multiplyMatrices (transposeMatrix pKey.A) rnd.r q modulusPolynomial
  let u ← addMatrices mu rnd.e1 q modulusPolynomial
  let mv ← multiplyMatrices (transposeMatrix pKey.t) rnd.r q modulusPolynomial
  let mv2 ← addMatrices mv rnd.e2 q modulusPolynomial
  let v ← addMatrices mv2 matrixMsgScaled q modulusPolynomial
  .ok ⟨u, v⟩

/-- Source `crystalsKyber_decrypt(eb, sKey)`: `d = v - sᵀ·u`, then decode the
single entry `d[0][0]` coefficient-by-coefficient with `reduceToBinary`
against `q / 2`.  (JavaScript faults when that entry's row is empty; the
successful subtract guarantees at least one row, and an empty row is the
`TypeError` case.) -/
def crystalsKyber_decrypt (eb : EncryptedBlock) (sKey : CrystalsKyberPrivateKey) :
    Except String Polynomial := do
  let mu ← multiplyMatrices (transposeMatrix sKey.s) eb.u q modulusPolynomial
  let msg_decrypted ← subtractMatrices eb.v mu q modulusPolynomial
  match msg_decrypted with
  | (msg_polynomial :: _) :: _ =>
    .ok ⟨msg_polynomial.coefficients.map (fun coeff => reduceToBinary coeff 0 (q / 2))⟩
  | _ => .error typeErrorMsg

/-- The block loop of `crystalsKyber_encryptMessage`: encrypt each block with
that block's randomness, propagating any thrown error. -/
def encryptBlocksLoop (pKey : CrystalsKyberPublicKey) (rnds : ℕ → EncryptRandomness) :
    ℕ → List Polynomial → Except String (List EncryptedBlock)
  | _, [] => .ok []
  | i, p :: rest => do
    let ct ← crystalsKyber_encrypt p pKey (rnds i)
    let tail ← encryptBlocksLoop pKey rnds (i + 1) rest
    .ok (ct :: tail)

/-- Source `crystalsKyber_encryptMessage(message, pKey)` with the per-block
sampling randomness explicit: split the text into blocks of size `n`, encrypt
each block independently. -/
def crystalsKyber_encryptMessage (message : List ℕ) (pKey : CrystalsKyberPublicKey)
    (rnds : ℕ → EncryptRandomness) : Except String (List EncryptedBlock) :=
  encryptBlocksLoop pKey rnds 0 (textToPolynomialBlocks message n)

/-- The block loop of `crystalsKyber_decryptMessage`: decrypt each block
independently, propagating any thrown error. -/
def decryptBlocksLoop (sKey : CrystalsKyberPrivateKey) :
    List EncryptedBlock → Except String (List Polynomial)
  | [] => .ok []
  | eb :: rest => do
    let p ← crystalsKyber_decrypt eb sKey
    let tail ← decryptBlocksLoop sKey rest
    .ok (p :: tail)

/-- Source `crystalsKyber_decryptMessage(encryptedMsg, sKey)`: decrypt every
block, drop the last decrypted block when its coefficients are all zero,
apply padding removal to the (now-)last block only, decode to text.  Reading
the last element of an empty decrypted list is JavaScript's `TypeError`. -/
def crystalsKyber_decryptMessage (encryptedMsg : List EncryptedBlock)
    (sKey : CrystalsKyberPrivateKey) : Except String (List ℕ) := do
  let polynomialsDecrypted ← decryptBlocksLoop sKey encryptedMsg
  match polynomialsDecrypted.getLast? with
  | none => .error typeErrorMsg
  | some lastPolynomial =>
    let allZeroes := lastPolynomial.coefficients.all (fun c => decide (c = 0))
    let pd := if allZeroes then polynomialsDecrypted.dropLast else polynomialsDecrypted
    .ok (polynomialBlocksToText
      (pd.enum.map (fun p =>
        if p.1 = pd.length - 1 then removePaddingFromPolynomialBlocks p.2 else p.2)) n)


/-! ## General helper lemmas -/

theorem getD_range_map (f : ℕ → ℚ) (m i : ℕ) :
    ((List.range m).map f).getD i 0 = if i < m then f i else 0 := by
  by_cases h : i < m
  · rw [List.getD_eq_getElem _ _ (by simpa using h), if_pos h]
    simp
  · rw [List.getD_eq_default _ _ (by simpa using Nat.le_of_not_lt h), if_neg h]

theorem length_kyberModulusPolynomial (deg : ℕ) :
    (kyberModulusPolynomial deg).coefficients.length = deg + 1 := by
  simp [kyberModulusPolynomial]

/-- A coefficient lying in the canonical centered band `[-⌊q/2⌋, ⌊q/2⌋]`. -/
def isCentered (moduloQ x : ℚ) : Prop :=
  -(mathFloor (moduloQ / 2)) ≤ x ∧ x ≤ mathFloor (moduloQ / 2)

theorem divideLoop_of_lt (divisorCoeffs : List ℚ) (moduloQ : ℚ) (fuel : ℕ) (coeffs : List ℚ)
    (h : coeffs.length < divisorCoeffs.length) :
    divideLoop divisorCoeffs moduloQ fuel coeffs = coeffs := by
  cases fuel with
  | zero => rfl
  | succ fuel => simp [divideLoop, Nat.not_le.mpr h]

/-! ## C8: ring reduction idempotence -/

/-- C8: for every ring element already reduced — degree strictly below the
modulus polynomial's degree (so its coefficient list is shorter than the
modulus polynomial's), coefficients centered modulo q — the polynomial-ring
reduction `dividePolynomials` returns it unchanged: its division loop never
runs. -/
theorem dividePolynomials_reduced_fixed (p : Polynomial) (deg : ℕ) (moduloQ : ℚ)
    (hdeg : p.coefficients.length < (kyberModulusPolynomial deg).coefficients.length)
    (hcent : ∀ c ∈ p.coefficients, isCentered moduloQ c) :
    dividePolynomials p (kyberModulusPolynomial deg) moduloQ = p := by
  unfold dividePolynomials
  rw [divideLoop_of_lt _ _ _ _ hdeg]

/-- C8 witness: the centered, degree-1 element `5 - 3x` is fixed by reduction
modulo `x^3 + 1` over `q = 11`. -/
theorem dividePolynomials_reduced_fixed_witness :
    dividePolynomials ⟨[5, -3]⟩ (kyberModulusPolynomial 3) 11 = ⟨[5, -3]⟩ :=
  dividePolynomials_reduced_fixed ⟨[5, -3]⟩ 3 11 (by decide)
    (by
      have h5 : mathFloor ((11 : ℚ) / 2) = 5 := by norm_num [mathFloor]
      intro c hc
      simp only [List.mem_cons, List.not_mem_nil, or_false] at hc
      rcases hc with rfl | rfl <;> constructor <;> rw [h5] <;> norm_num [isCentered])

/-! ## C5: shape errors -/

/-- C5: `addMatrices` and `subtractMatrices` fail with the ShapeMismatch
error whenever the operands' dimensions (row count, or first-row column
count) differ, and `multiplyMatrices` fails with its ShapeMismatch error
whenever the first operand's column count differs from the second operand's
row count; the guards run before any output entry is produced, so the
`Except.error` result carries no partial output and propagates to callers. -/
theorem matrixOps_shapeMismatch (A B : PolynomialMatrix) (moduloQ : ℚ) (f : Polynomial) :
    ((A.length ≠ B.length ∨ (A ≠ [] ∧ (A.headD []).length ≠ (B.headD []).length)) →
       addMatrices A B moduloQ f = .error dimensionMismatchMsg ∧
       subtractMatrices A B moduloQ f = .error dimensionMismatchMsg) ∧
    (∀ a0 A2, A = a0 :: A2 → a0.length ≠ B.length →
       multiplyMatrices A B moduloQ f = .error innerDimensionMsg) := by
  constructor
  · intro h
    by_cases hlen : A.length = B.length
    · rcases h with h | ⟨hA, hhd⟩
      · exact absurd hlen h
      · match A, B with
        | [], _ => exact absurd rfl hA
        | _ :: _, [] => simp at hlen
        | a0 :: A2, b0 :: B2 =>
          simp only [List.headD_cons] at hhd
          constructor <;> simp [addMatrices, subtractMatrices, hlen, hhd]
    · constructor <;> simp [addMatrices, subtractMatrices, hlen]
  · intro a0 A2 hA hcols
    subst hA
    simp [multiplyMatrices, hcols]

/-- C5 witness: a 1-row matrix against the empty matrix trips all three
shape guards. -/
theorem matrixOps_shapeMismatch_witness :
    addMatrices [[⟨[]⟩]] [] 3329 modulusPolynomial = .error dimensionMismatchMsg ∧
    subtractMatrices [[⟨[]⟩]] [] 3329 modulusPolynomial = .error dimensionMismatchMsg ∧
    multiplyMatrices [[⟨[]⟩]] [] 3329 modulusPolynomial = .error innerDimensionMsg := by
  obtain ⟨h1, h2⟩ := matrixOps_shapeMismatch [[⟨[]⟩]] [] 3329 modulusPolynomial
  have h3 := h1 (Or.inl (by decide))
  exact ⟨h3.1, h3.2, h2 [⟨[]⟩] [] rfl (by decide)⟩

/-! ## C3: the message scaling -/

/-- C3 counterexample: at the one-coefficient message block `m = [1]`, the
scaled message the code forms is `[3329/2] = [1664.5]`, not `[⌊q/2⌋] = [1664]`
as the claim states. -/
theorem encryptMsgScaled_not_floor :
    encryptMsgScaled ⟨[1]⟩ = ⟨[3329 / 2]⟩ ∧ (⟨[3329 / 2]⟩ : Polynomial) ≠ ⟨[1664]⟩ := by
  constructor
  · simp [encryptMsgScaled, q]
  · intro h
    have := congrArg Polynomial.coefficients h
    simp at this
    norm_num at this

/-- C3 amended: single-block encryption forms `m_scaled` by multiplying every
coefficient of `m` by `q / 2` — JavaScript real division, exactly
`1664.5 = 3329/2` for `q = 3329` — which differs from the integer floor
`⌊q/2⌋` the claim names. -/
theorem encryptMsgScaled_exact (msg : Polynomial) (i : ℕ) :
    (encryptMsgScaled msg).coefficients.getD i 0 = (msg.coefficients.getD i 0) * (3329 / 2) ∧
    (3329 / 2 : ℚ) ≠ mathFloor (q / 2) := by
  constructor
  · calc (encryptMsgScaled msg).coefficients.getD i 0
        = (msg.coefficients.map (fun c => c * (q / 2))).getD i ((0 : ℚ) * (q / 2)) := by
          rw [encryptMsgScaled, zero_mul]
      _ = (msg.coefficients.getD i 0) * (q / 2) := List.getD_map _ _ _
      _ = (msg.coefficients.getD i 0) * (3329 / 2) := by norm_num [q]
  · have : mathFloor (q / 2) = 1664 := by norm_num [mathFloor, q]
    rw [this]
    norm_num


/-! ## Arithmetic characterization of `jsMod` and `symmetricValueModuloQ`
on integer arguments, used by C4 and C9. -/

theorem floor_intCast_div_pos (a b : ℤ) (hb : 0 < b) :
    ⌊(a : ℚ) / (b : ℚ)⌋ = a / b := by
  obtain ⟨c, rfl⟩ : ∃ c : ℕ, b = (c : ℤ) := ⟨b.toNat, (Int.toNat_of_nonneg hb.le).symm⟩
  exact_mod_cast Rat.floor_intCast_div_natCast a c

theorem jsMod_intCast (v m : ℤ) (hm : 0 < m) :
    jsMod (v : ℚ) (m : ℚ) = ((if 0 ≤ v then v % m else -((-v) % m) : ℤ) : ℚ) := by
  unfold jsMod jsTrunc
  by_cases hv : 0 ≤ v
  · have h0 : (0 : ℚ) ≤ (v : ℚ) / (m : ℚ) :=
      div_nonneg (by exact_mod_cast hv) (by exact_mod_cast hm.le)
    rw [if_pos h0, floor_intCast_div_pos v m hm, if_pos hv]
    push_cast [Int.emod_def]
    ring
  · have hvneg : (v : ℚ) < 0 := by exact_mod_cast not_le.mp hv
    have h0 : ¬ (0 : ℚ) ≤ (v : ℚ) / (m : ℚ) := by
      rw [not_le]
      exact div_neg_of_neg_of_pos hvneg (by exact_mod_cast hm)
    have hsw : (v : ℚ) / (m : ℚ) = -(((-v : ℤ) : ℚ) / (m : ℚ)) := by push_cast; ring
    rw [if_neg h0, if_neg hv, hsw, Int.ceil_neg, floor_intCast_div_pos (-v) m hm]
    push_cast [Int.emod_def]
    ring

/-- The value of `symmetricValueModuloQ` on integer arguments, as an integer
computation (JavaScript truncated remainder written with Euclidean `%`). -/
def symInt (v m : ℤ) : ℤ :=
  let r := if 0 ≤ v then v % m else -((-v) % m)
  if r < 0 then (if r < -(m / 2) then r + m else r)
  else (if r > m / 2 then r - m else r)

theorem mathFloor_intCast_div_two (m : ℤ) :
    mathFloor ((m : ℚ) / 2) = ((m / 2 : ℤ) : ℚ) := by
  unfold mathFloor
  rw [show ((2 : ℚ)) = ((2 : ℤ) : ℚ) by norm_num, floor_intCast_div_pos m 2 (by norm_num)]

theorem sym_intCast (v m : ℤ) (hm : 0 < m) :
    symmetricValueModuloQ (v : ℚ) (m : ℚ) = ((symInt v m : ℤ) : ℚ) := by
  have hmod := jsMod_intCast v m hm
  simp only [symmetricValueModuloQ, symInt, hmod, mathFloor_intCast_div_two]
  set r : ℤ := if 0 ≤ v then v % m else -((-v) % m) with hr
  have e1 : ((r : ℚ) < 0) = (r < 0) := propext (by exact_mod_cast Iff.rfl)
  have e2 : ((r : ℚ) < -((m / 2 : ℤ) : ℚ)) = (r < -(m / 2)) :=
    propext (by exact_mod_cast Iff.rfl)
  have e3 : ((r : ℚ) > ((m / 2 : ℤ) : ℚ)) = (r > m / 2) :=
    propext (by exact_mod_cast Iff.rfl)
  simp only [e1, e2, e3]
  split_ifs <;> push_cast <;> ring

/-- `symmetricValueModuloQ` shifts its argument by an integer multiple of the
modulus (its remainder step subtracts `m * trunc`, its branches one more `±m`). -/
theorem sym_shift_int (x mq : ℚ) :
    ∃ t : ℤ, symmetricValueModuloQ x mq = x - mq * t := by
  simp only [symmetricValueModuloQ, jsMod]
  split_ifs
  · exact ⟨jsTrunc (x / mq) - 1, by push_cast; ring⟩
  · exact ⟨jsTrunc (x / mq), by push_cast; ring⟩
  · exact ⟨jsTrunc (x / mq) + 1, by push_cast; ring⟩
  · exact ⟨jsTrunc (x / mq), by push_cast; ring⟩

/-! ## C4: centerModulo -/

/-- C4 counterexample: at value `-2` and the (even) positive modulus `4`, the
code returns `-2`, which is congruent but does NOT lie in the claimed
symmetric range `(-4/2, 4/2] = (-2, 2]`. -/
theorem centerModulo_even_counterexample :
    symmetricValueModuloQ (-2) 4 = -2 ∧
    ¬ (-(4 : ℚ) / 2 < symmetricValueModuloQ (-2) 4) := by
  have h := sym_intCast (-2) 4 (by norm_num)
  have hs : symInt (-2) 4 = -2 := by decide
  rw [hs] at h
  norm_num at h
  refine ⟨h, ?_⟩
  rw [h]
  norm_num

/-- C4 amended: for every integer value and every positive ODD modulus (the
source only ever passes the odd moduli 3329 and 5), `centerModulo` returns a
value congruent to the input modulo the modulus, lying in the symmetric range
`(-m/2, m/2]`, obtained from the raw JavaScript remainder by adding or
subtracting the modulus at most once; for even moduli the boundary class
`±m/2` can be returned as `-m/2`, outside that half-open range. -/
theorem centerModulo_correct (v m : ℤ) (hm : 0 < m) (hodd : m % 2 = 1) :
    (∃ t : ℤ, symmetricValueModuloQ (v : ℚ) (m : ℚ) = (v : ℚ) - (m : ℚ) * t) ∧
    (-(m : ℚ) / 2 < symmetricValueModuloQ (v : ℚ) (m : ℚ) ∧
      symmetricValueModuloQ (v : ℚ) (m : ℚ) ≤ (m : ℚ) / 2) ∧
    (symmetricValueModuloQ (v : ℚ) (m : ℚ) = jsMod (v : ℚ) (m : ℚ) ∨
     symmetricValueModuloQ (v : ℚ) (m : ℚ) = jsMod (v : ℚ) (m : ℚ) + (m : ℚ) ∨
     symmetricValueModuloQ (v : ℚ) (m : ℚ) = jsMod (v : ℚ) (m : ℚ) - (m : ℚ)) := by
  refine ⟨sym_shift_int _ _, ?_, ?_⟩
  · have h1 : 0 ≤ v % m := Int.emod_nonneg v hm.ne'
    have h2 : v % m < m := Int.emod_lt_of_pos v hm
    have h3 : 0 ≤ (-v) % m := Int.emod_nonneg _ hm.ne'
    have h4 : (-v) % m < m := Int.emod_lt_of_pos _ hm
    have key : -m < symInt v m * 2 ∧ symInt v m * 2 ≤ m := by
      simp only [symInt]
      generalize hra : v % m = ra at *
      generalize hrb : (-v) % m = rb at *
      generalize hc : m / 2 = c at *
      have h5 : m = 2 * c + 1 := by omega
      split_ifs <;> omega
    rw [sym_intCast v m hm]
    have hm2 : (0 : ℚ) < 2 := by norm_num
    constructor
    · rw [div_lt_iff hm2]
      exact_mod_cast key.1
    · rw [le_div_iff hm2]
      exact_mod_cast key.2
  · simp only [symmetricValueModuloQ]
    split_ifs
    · right; left; ring
    · left; rfl
    · right; right; ring
    · left; rfl

/-- C4 witness: at value `-7` and odd modulus `5` the amended claim's range
bounds hold (the code returns `-2`). -/
theorem centerModulo_correct_witness :
    -(((5 : ℤ)) : ℚ) / 2 < symmetricValueModuloQ ((-7 : ℤ) : ℚ) ((5 : ℤ) : ℚ) ∧
    symmetricValueModuloQ ((-7 : ℤ) : ℚ) ((5 : ℤ) : ℚ) ≤ (((5 : ℤ)) : ℚ) / 2 :=
  (centerModulo_correct (-7) 5 (by decide) (by decide)).2.1


/-! ## Codec layer: the bit-packing fold, padding analysis, and the
decoder's tail treatment (C2, and groundwork for C1, C6, C7). -/

/-- Apply `f` to the last element of a list only — the §4.9 "padding removal
on the (now-)final block only" treatment, written from the spec's words. -/
def specMapLast (f : Polynomial → Polynomial) : List Polynomial → List Polynomial
  | [] => []
  | [p] => [f p]
  | p :: p2 :: rest => p :: specMapLast f (p2 :: rest)

/-- The decoder's tail treatment, from the spec's words (§4.9): drop the last
block iff its coefficients are all zero, then strip the padding from the
(now-)final block only. -/
def processTail (blocks : List Polynomial) : List Polynomial :=
  let pd :=
    if (blocks.getLastD ⟨[]⟩).coefficients.all (fun c => decide (c = 0)) then blocks.dropLast
    else blocks
  specMapLast removePaddingFromPolynomialBlocks pd

theorem specMapLast_append (f : Polynomial → Polynomial) (l : List Polynomial) (a : Polynomial) :
    specMapLast f (l ++ [a]) = l ++ [f a] := by
  induction l with
  | nil => rfl
  | cons x xs ih =>
    cases xs with
    | nil => rfl
    | cons y ys => simpa [specMapLast] using ih

theorem getLastD_concat (l : List Polynomial) (a d : Polynomial) :
    (l ++ [a]).getLastD d = a := by
  rw [List.getLastD_eq_getLast?, List.getLast?_concat]
  rfl

/-- The bits of the padding byte, computed. -/
theorem byteToBits_padding : byteToBits 0x80 = 1 :: List.replicate 7 0 := by decide

theorem dropPaddingRev_replicate (m : ℕ) (r : List ℚ) :
    dropPaddingRev (List.replicate m 0 ++ 1 :: r) = r := by
  induction m with
  | zero => simp [dropPaddingRev]
  | succ m ih => simpa [List.replicate_succ, dropPaddingRev] using ih

theorem removePadding_marker (c : List ℚ) (m : ℕ) :
    removePaddingFromPolynomialBlocks ⟨c ++ 1 :: List.replicate m 0⟩ = ⟨c⟩ := by
  unfold removePaddingFromPolynomialBlocks
  rw [List.reverse_append, List.reverse_cons, List.reverse_replicate, List.append_assoc,
    List.singleton_append, dropPaddingRev_replicate, List.reverse_reverse]

theorem allZero_marker_block (c z : List ℚ) :
    ((c ++ 1 :: z).all (fun x => decide (x = 0))) = false := by
  simp [List.all_append]

/-- The shape of the padded block list when the leftover chunk already fills
a block and the marker byte then fills its own block exactly. -/
theorem addPadding_full_exact (c : List ℚ) (B : ℕ) (hB : 0 < B)
    (h1 : c.length = B) (h2 : (8 : ℕ) = B) :
    addPaddingToPolynomialBlocks ⟨c⟩ B =
      [⟨c⟩, ⟨1 :: List.replicate 7 0⟩, ⟨List.replicate B 0⟩] := by
  unfold addPaddingToPolynomialBlocks
  simp only [byteToBits_padding]
  split_ifs with g1 g2 g3 <;> simp_all <;> omega

/-- The shape when the leftover chunk fills a block and the marker block is
zero-filled (or left as the bare marker byte when `B < 8`). -/
theorem addPadding_full_rest (c : List ℚ) (B : ℕ) (hB : 0 < B)
    (h1 : c.length = B) (h2 : ¬ (8 : ℕ) = B) :
    addPaddingToPolynomialBlocks ⟨c⟩ B =
      [⟨c⟩, ⟨1 :: List.replicate (7 + (B - 8)) 0⟩] := by
  unfold addPaddingToPolynomialBlocks
  simp only [byteToBits_padding]
  split_ifs with g1 g2 g3 <;> simp_all [List.replicate_add] <;> omega

/-- The shape when the marker byte completes the partial block exactly: an
all-zero filler block follows. -/
theorem addPadding_partial_exact (c : List ℚ) (B : ℕ) (hB : 0 < B)
    (h1 : ¬ c.length = B) (h2 : c.length + 8 = B) :
    addPaddingToPolynomialBlocks ⟨c⟩ B =
      [⟨c ++ 1 :: List.replicate 7 0⟩, ⟨List.replicate B 0⟩] := by
  unfold addPaddingToPolynomialBlocks
  simp only [byteToBits_padding]
  split_ifs with g1 g2 g3 <;> simp_all <;> omega

/-- The shape when the marker byte lands inside (or overflows) the partial
final block. -/
theorem addPadding_partial_rest (c : List ℚ) (B : ℕ) (hB : 0 < B)
    (h1 : ¬ c.length = B) (h2 : ¬ c.length + 8 = B) :
    addPaddingToPolynomialBlocks ⟨c⟩ B =
      [⟨c ++ 1 :: List.replicate (7 + (B - (c.length + 8))) 0⟩] := by
  unfold addPaddingToPolynomialBlocks
  simp only [byteToBits_padding]
  split_ifs with g1 g2 g3 <;> simp_all [List.replicate_add] <;> omega

theorem allZero_replicate (B : ℕ) :
    ((List.replicate B (0 : ℚ)).all (fun x => decide (x = 0))) = true := by
  simp [List.all_eq_true, List.mem_replicate]

/-- The decoder's tail treatment applied right after padding: whatever fits,
the result is the data blocks followed by the unpadded final chunk (possibly
with one empty block after it, when the padding marker occupied its own
block). -/
theorem processTail_addPadding (pre : List Polynomial) (c : List ℚ) (B : ℕ)
    (hB : 0 < B) (hc : c.length ≤ B) :
    processTail (pre ++ addPaddingToPolynomialBlocks ⟨c⟩ B) = pre ++ [⟨c⟩] ∨
    processTail (pre ++ addPaddingToPolynomialBlocks ⟨c⟩ B) = pre ++ [⟨c⟩, ⟨[]⟩] := by
  by_cases h1 : c.length = B
  · by_cases h2 : (8 : ℕ) = B
    · right
      rw [addPadding_full_exact c B hB h1 h2,
        show pre ++ [(⟨c⟩ : Polynomial), ⟨1 :: List.replicate 7 0⟩, ⟨List.replicate B 0⟩] =
          (pre ++ [⟨c⟩, ⟨1 :: List.replicate 7 0⟩]) ++ [⟨List.replicate B 0⟩] by simp]
      unfold processTail
      rw [getLastD_concat]
      simp only [allZero_replicate, if_true]
      rw [List.dropLast_concat,
        show pre ++ [(⟨c⟩ : Polynomial), ⟨1 :: List.replicate 7 0⟩] =
          (pre ++ [⟨c⟩]) ++ [⟨1 :: List.replicate 7 0⟩] by simp,
        specMapLast_append,
        show (⟨1 :: List.replicate 7 0⟩ : Polynomial) = ⟨[] ++ 1 :: List.replicate 7 0⟩ from rfl,
        removePadding_marker]
      simp
    · right
      rw [addPadding_full_rest c B hB h1 h2,
        show pre ++ [(⟨c⟩ : Polynomial), ⟨1 :: List.replicate (7 + (B - 8)) 0⟩] =
          (pre ++ [⟨c⟩]) ++ [⟨1 :: List.replicate (7 + (B - 8)) 0⟩] by simp]
      unfold processTail
      rw [getLastD_concat,
        show ((1 : ℚ) :: List.replicate (7 + (B - 8)) 0) =
          [] ++ 1 :: List.replicate (7 + (B - 8)) 0 from rfl,
        allZero_marker_block]
      simp only [Bool.false_eq_true, if_false]
      rw [specMapLast_append, removePadding_marker]
      simp
  · by_cases h2 : c.length + 8 = B
    · left
      rw [addPadding_partial_exact c B hB h1 h2,
        show pre ++ [(⟨c ++ 1 :: List.replicate 7 0⟩ : Polynomial), ⟨List.replicate B 0⟩] =
          (pre ++ [⟨c ++ 1 :: List.replicate 7 0⟩]) ++ [⟨List.replicate B 0⟩] by simp]
      unfold processTail
      rw [getLastD_concat]
      simp only [allZero_replicate, if_true]
      rw [List.dropLast_concat, specMapLast_append, removePadding_marker]
    · left
      rw [addPadding_partial_rest c B hB h1 h2]
      unfold processTail
      rw [show pre ++ [(⟨c ++ 1 :: List.replicate (7 + (B - (c.length + 8))) 0⟩ : Polynomial)] =
          pre ++ [⟨c ++ 1 :: List.replicate (7 + (B - (c.length + 8))) 0⟩] from rfl,
        getLastD_concat, allZero_marker_block]
      simp only [Bool.false_eq_true, if_false]
      rw [specMapLast_append, removePadding_marker]

theorem foldl_pushBit_flatten (B : ℕ) (l : List ℚ) (bs : List Polynomial) (cur : List ℚ) :
    ((l.foldl (pushBit B) (bs, cur)).1.flatMap Polynomial.coefficients) ++
      (l.foldl (pushBit B) (bs, cur)).2 =
    bs.flatMap Polynomial.coefficients ++ cur ++ l := by
  induction l generalizing bs cur with
  | nil => simp
  | cons x xs ih =>
    rw [List.foldl_cons]
    by_cases h : cur.length = B
    · rw [show pushBit B (bs, cur) x = (bs ++ [⟨cur⟩], [x]) by simp [pushBit, h], ih]
      simp
    · rw [show pushBit B (bs, cur) x = (bs, cur ++ [x]) by simp [pushBit, h], ih]
      simp

theorem foldl_pushBit_currentLen (B : ℕ) (hB : 0 < B) (l : List ℚ)
    (bs : List Polynomial) (cur : List ℚ) (hcur : cur.length ≤ B) :
    (l.foldl (pushBit B) (bs, cur)).2.length ≤ B := by
  induction l generalizing bs cur with
  | nil => exact hcur
  | cons x xs ih =>
    rw [List.foldl_cons]
    by_cases h : cur.length = B
    · rw [show pushBit B (bs, cur) x = (bs ++ [⟨cur⟩], [x]) by simp [pushBit, h]]
      exact ih _ _ (by simpa using hB)
    · rw [show pushBit B (bs, cur) x = (bs, cur ++ [x]) by simp [pushBit, h]]
      exact ih _ _ (by simp; omega)

theorem foldl_pushBit_blockLens (B : ℕ) (l : List ℚ) (bs : List Polynomial) (cur : List ℚ)
    (hbs : ∀ p ∈ bs, p.coefficients.length = B) :
    ∀ p ∈ (l.foldl (pushBit B) (bs, cur)).1, p.coefficients.length = B := by
  induction l generalizing bs cur with
  | nil => exact hbs
  | cons x xs ih =>
    rw [List.foldl_cons]
    by_cases h : cur.length = B
    · rw [show pushBit B (bs, cur) x = (bs ++ [⟨cur⟩], [x]) by simp [pushBit, h]]
      refine ih _ _ ?_
      intro p hp
      rcases List.mem_append.mp hp with hp | hp
      · exact hbs p hp
      · simp only [List.mem_singleton] at hp
        rw [hp]
        exact h
    · rw [show pushBit B (bs, cur) x = (bs, cur ++ [x]) by simp [pushBit, h]]
      exact ih _ _ hbs

/-! ## C2: the padding round trip -/

/-- C2 counterexample: for the empty bit sequence and block size 8, encoding
emits the marker block `[1,0,0,0,0,0,0,0]` followed by an all-zero block;
applying `removePadding` to the last emitted block and keeping all prior
blocks unchanged — the claim's reconstruction, with no all-zero-block drop —
yields `[1,0,0,0,0,0,0,0]`, not the original empty sequence. -/
theorem paddingRoundTrip_counterexample :
    (specMapLast removePaddingFromPolynomialBlocks (bitsToBlocks [] 8)).flatMap
        Polynomial.coefficients = [1, 0, 0, 0, 0, 0, 0, 0] ∧
    ([1, 0, 0, 0, 0, 0, 0, 0] : List ℚ) ≠ ([] : List ℚ) := by
  constructor
  · decide
  · decide

/-- C2 amended: for every bit sequence and every block size B (a positive
multiple of 8), encoding into blocks with the 0x80 padding scheme and then
decoding the block list as the decoder does — first dropping the last emitted
block when its coefficients are all zero, then taking removePadding of the
(now-)last block with all prior blocks unchanged — reconstructs exactly the
original bit sequence, including L mod B = 0 and L = 0. -/
theorem paddingRoundTrip_amended (bits : List ℚ) (B : ℕ) (hB : 0 < B) (h8 : 8 ∣ B) :
    (processTail (bitsToBlocks bits B)).flatMap Polynomial.coefficients = bits := by
  unfold bitsToBlocks
  have hcur : (bits.foldl (pushBit B) ([], [])).2.length ≤ B :=
    foldl_pushBit_currentLen B hB bits [] [] (by simp)
  have hflat := foldl_pushBit_flatten B bits [] []
  simp only [List.flatMap_nil, List.nil_append] at hflat
  rcases processTail_addPadding (bits.foldl (pushBit B) ([], [])).1
      (bits.foldl (pushBit B) ([], [])).2 B hB hcur with h | h
  · rw [h, List.flatMap_append]
    simpa using hflat
  · rw [h, List.flatMap_append]
    simpa using hflat

/-- C2 witness: a 9-bit sequence at block size 8 survives the encode/decode
round trip. -/
theorem paddingRoundTrip_amended_witness :
    (processTail (bitsToBlocks [1, 0, 1, 1, 0, 0, 1, 0, 1] 8)).flatMap
      Polynomial.coefficients = [1, 0, 1, 1, 0, 0, 1, 0, 1] :=
  paddingRoundTrip_amended [1, 0, 1, 1, 0, 0, 1, 0, 1] 8 (by decide) (by decide)


/-! ## Byte layer: the source's per-block byte reassembly against the
spec's one-stream regrouping (C6, and groundwork for C1). -/

/-- The byte assembled from 8 consecutive 0/1 coefficients, most significant
first, exactly as 8 iterations of the source's shift-and-or loop build it. -/
def byteOfBits (c0 c1 c2 c3 c4 c5 c6 c7 : ℚ) : ℕ :=
  (((((((((0 <<< 1) ||| bitVal c0) <<< 1) ||| bitVal c1) <<< 1 ||| bitVal c2) <<< 1 |||
    bitVal c3) <<< 1 ||| bitVal c4) <<< 1 ||| bitVal c5) <<< 1 ||| bitVal c6) <<< 1 |||
    bitVal c7

/-- The spec's decoding (§4.5 Decode, written from the spec's words):
concatenate all coefficients into one stream and regroup every 8 consecutive
bits into a byte (an incomplete final group yields no byte). -/
def bitsToBytes : List ℚ → List ℕ
  | c0 :: c1 :: c2 :: c3 :: c4 :: c5 :: c6 :: c7 :: rest =>
    byteOfBits c0 c1 c2 c3 c4 c5 c6 c7 :: bitsToBytes rest
  | _ => []

theorem polyToBytesStep_mid (bytes : List ℕ) (b i : ℕ) (c : ℚ) (h : ¬ (i + 1) % 8 = 0) :
    polyToBytesStep (bytes, b) (i, c) = (bytes, (b <<< 1) ||| bitVal c) := by
  simp [polyToBytesStep, h]

theorem polyToBytesStep_end (bytes : List ℕ) (b i : ℕ) (c : ℚ) (h : (i + 1) % 8 = 0) :
    polyToBytesStep (bytes, b) (i, c) = (bytes ++ [(b <<< 1) ||| bitVal c], 0) := by
  simp [polyToBytesStep, h]

theorem foldl_bytes_chunk (c0 c1 c2 c3 c4 c5 c6 c7 : ℚ) (rest : List ℚ) (i0 : ℕ)
    (bytes : List ℕ) (h : i0 % 8 = 0) :
    (List.enumFrom i0 (c0 :: c1 :: c2 :: c3 :: c4 :: c5 :: c6 :: c7 :: rest)).foldl
      polyToBytesStep (bytes, 0) =
    (List.enumFrom (i0 + 8) rest).foldl polyToBytesStep
      (bytes ++ [byteOfBits c0 c1 c2 c3 c4 c5 c6 c7], 0) := by
  have e1 : (i0 + 1) % 8 = 1 := by omega
  have e2 : (i0 + 1 + 1) % 8 = 2 := by omega
  have e3 : (i0 + 1 + 1 + 1) % 8 = 3 := by omega
  have e4 : (i0 + 1 + 1 + 1 + 1) % 8 = 4 := by omega
  have e5 : (i0 + 1 + 1 + 1 + 1 + 1) % 8 = 5 := by omega
  have e6 : (i0 + 1 + 1 + 1 + 1 + 1 + 1) % 8 = 6 := by omega
  have e7 : (i0 + 1 + 1 + 1 + 1 + 1 + 1 + 1) % 8 = 7 := by omega
  have e8 : (i0 + 1 + 1 + 1 + 1 + 1 + 1 + 1 + 1) % 8 = 0 := by omega
  have e9 : i0 + 1 + 1 + 1 + 1 + 1 + 1 + 1 + 1 = i0 + 8 := by omega
  simp [List.enumFrom_cons, List.foldl_cons, polyToBytesStep, byteOfBits,
    e1, e2, e3, e4, e5, e6, e7, e8, e9]

theorem foldl_bytes_eq_bitsToBytes (nblocks : ℕ) : ∀ (l : List ℚ), l.length = 8 * nblocks →
    ∀ (i0 : ℕ) (bytes : List ℕ), i0 % 8 = 0 →
    ((List.enumFrom i0 l).foldl polyToBytesStep (bytes, 0)).1 = bytes ++ bitsToBytes l := by
  induction nblocks with
  | zero =>
    intro l hl i0 bytes h
    have hnil : l = [] := List.length_eq_zero.mp (by omega)
    subst hnil
    simp [bitsToBytes]
  | succ m ih =>
    intro l hl i0 bytes h
    rcases l with _ | ⟨c0, _ | ⟨c1, _ | ⟨c2, _ | ⟨c3, _ | ⟨c4, _ | ⟨c5, _ | ⟨c6, _ | ⟨c7, rest⟩⟩⟩⟩⟩⟩⟩⟩ <;>
      simp only [List.length_cons, List.length_nil] at hl
    · omega
    · omega
    · omega
    · omega
    · omega
    · omega
    · omega
    · omega
    · rw [foldl_bytes_chunk _ _ _ _ _ _ _ _ rest i0 bytes h,
        ih rest (by omega) (i0 + 8) _ (by omega)]
      simp [bitsToBytes]

theorem bitsToBytes_append (nblocks : ℕ) : ∀ (xs ys : List ℚ), xs.length = 8 * nblocks →
    bitsToBytes (xs ++ ys) = bitsToBytes xs ++ bitsToBytes ys := by
  induction nblocks with
  | zero =>
    intro xs ys hl
    have hnil : xs = [] := List.length_eq_zero.mp (by omega)
    subst hnil
    simp [bitsToBytes]
  | succ m ih =>
    intro xs ys hl
    rcases xs with _ | ⟨c0, _ | ⟨c1, _ | ⟨c2, _ | ⟨c3, _ | ⟨c4, _ | ⟨c5, _ | ⟨c6, _ | ⟨c7, rest⟩⟩⟩⟩⟩⟩⟩⟩ <;>
      simp only [List.length_cons, List.length_nil] at hl
    · omega
    · omega
    · omega
    · omega
    · omega
    · omega
    · omega
    · omega
    · simp only [List.cons_append, bitsToBytes, List.append_eq]
      rw [ih rest ys (by omega)]

/-- The source's per-block byte loop equals the spec's one-stream regrouping
when every block's coefficient count is a multiple of 8. -/
theorem polynomialBlocksToText_stream (blocks : List Polynomial) (blockSize : ℕ)
    (h : ∀ p ∈ blocks, 8 ∣ p.coefficients.length) :
    polynomialBlocksToText blocks blockSize =
      bitsToBytes (blocks.flatMap Polynomial.coefficients) := by
  induction blocks with
  | nil => rfl
  | cons p ps ih =>
    obtain ⟨m, hm⟩ := h p (List.mem_cons_self p ps)
    unfold polynomialBlocksToText
    rw [List.flatMap_cons, List.flatMap_cons,
      show p.coefficients.enum = List.enumFrom 0 p.coefficients from rfl,
      foldl_bytes_eq_bitsToBytes m p.coefficients (by omega) 0 [] rfl,
      bitsToBytes_append m p.coefficients _ (by omega), List.nil_append]
    have := ih (fun p2 hp2 => h p2 (List.mem_cons_of_mem p hp2))
    unfold polynomialBlocksToText at this
    rw [this]

/-! ## C6: blocksToText against the one-stream decoding -/

/-- C6 counterexample: on two 4-coefficient blocks `[1,1,1,1]`, the code
rebuilds bytes per block and discards each block's sub-byte remainder,
returning no byte at all, while the claimed one-stream regrouping of the
concatenated 8 bits yields the byte 255. -/
theorem blocksToText_not_stream :
    polynomialBlocksToText [⟨[1, 1, 1, 1]⟩, ⟨[1, 1, 1, 1]⟩] 8 = [] ∧
    bitsToBytes (([⟨[1, 1, 1, 1]⟩, ⟨[1, 1, 1, 1]⟩] : List Polynomial).flatMap
      Polynomial.coefficients) = [255] ∧
    ([] : List ℕ) ≠ [255] := by
  refine ⟨by decide, by decide, by decide⟩

/-- C6 amended: for every sequence of bit-valued blocks each of whose
coefficient counts is a multiple of 8 (as all blocks the codec produces are),
`blocksToText` equals the function that concatenates all coefficients across
all blocks into one bit stream, regroups every 8 consecutive bits of that
stream into a byte, and maps the bytes back to characters; on a block whose
length is not a multiple of 8 the code instead restarts at the block
boundary and discards that block's sub-byte remainder. -/
theorem blocksToText_stream_decode (blocks : List Polynomial) (blockSize : ℕ)
    (h : ∀ p ∈ blocks, 8 ∣ p.coefficients.length) :
    polynomialBlocksToText blocks blockSize =
      bitsToBytes (blocks.flatMap Polynomial.coefficients) :=
  polynomialBlocksToText_stream blocks blockSize h

/-- C6 witness: one 8-coefficient block decodes equally both ways (to the
byte 72, the character `H`). -/
theorem blocksToText_stream_decode_witness :
    polynomialBlocksToText [⟨[0, 1, 0, 0, 1, 0, 0, 0]⟩] 8 =
      bitsToBytes (([⟨[0, 1, 0, 0, 1, 0, 0, 0]⟩] : List Polynomial).flatMap
        Polynomial.coefficients) :=
  blocksToText_stream_decode [⟨[0, 1, 0, 0, 1, 0, 0, 0]⟩] 8 (by decide)


theorem jsMod_bounds (x m : ℚ) (hm : 0 < m) : -m < jsMod x m ∧ jsMod x m < m := by
  unfold jsMod jsTrunc
  have hxm : m * (x / m) = x := by field_simp
  by_cases hx : 0 ≤ x / m
  · rw [if_pos hx]
    have h1 : ((⌊x / m⌋ : ℤ) : ℚ) ≤ x / m := Int.floor_le _
    have h2 : x / m < ((⌊x / m⌋ : ℤ) : ℚ) + 1 := Int.lt_floor_add_one _
    have h1m := mul_le_mul_of_nonneg_left h1 hm.le
    have h2m := mul_lt_mul_of_pos_left h2 hm
    rw [hxm] at h1m
    rw [mul_add, hxm, mul_one] at h2m
    constructor <;> linarith
  · rw [if_neg hx]
    have h1 : x / m ≤ ((⌈x / m⌉ : ℤ) : ℚ) := Int.le_ceil _
    have h2 : ((⌈x / m⌉ : ℤ) : ℚ) < x / m + 1 := Int.ceil_lt_add_one _
    have h1m := mul_le_mul_of_nonneg_left h1 hm.le
    have h2m := mul_lt_mul_of_pos_left h2 hm
    rw [hxm] at h1m
    rw [mul_add, hxm, mul_one] at h2m
    push_cast
    constructor <;> linarith

/-- A coefficient already in the centered band is fixed by
`symmetricValueModuloQ` even after shifting by any integer multiple of an odd
positive modulus: the key cancellation behind the additive-inverse law. -/
theorem sym_add_multiple (qz : ℤ) (hq : 0 < qz) (hodd : qz % 2 = 1) (a : ℚ)
    (halo : -(((qz / 2 : ℤ)) : ℚ) ≤ a) (hahi : a ≤ (((qz / 2 : ℤ)) : ℚ)) (kk : ℤ) :
    symmetricValueModuloQ (a + (qz : ℚ) * kk) (qz : ℚ) = a := by
  set c : ℤ := qz / 2 with hc
  have hqQ : (0 : ℚ) < (qz : ℚ) := by exact_mod_cast hq
  have hcQ : ((c : ℚ)) * 2 + 1 = (qz : ℚ) := by exact_mod_cast (by omega : c * 2 + 1 = qz)
  have hc0 : (0 : ℚ) ≤ (c : ℚ) := by exact_mod_cast (by omega : (0 : ℤ) ≤ c)
  have hcltq : (c : ℚ) < (qz : ℚ) := by exact_mod_cast (by omega : c < qz)
  set x : ℚ := a + (qz : ℚ) * kk with hx
  have hT : jsMod x (qz : ℚ) = x - (qz : ℚ) * (jsTrunc (x / (qz : ℚ)) : ℚ) := rfl
  set T : ℤ := jsTrunc (x / (qz : ℚ)) with hTdef
  obtain ⟨hrlo, hrhi⟩ := jsMod_bounds x (qz : ℚ) hqQ
  have hrj : jsMod x (qz : ℚ) = a + (qz : ℚ) * ((kk - T : ℤ) : ℚ) := by
    rw [hT, hx]
    push_cast
    ring
  have hup : (qz : ℚ) * ((kk - T : ℤ) : ℚ) < (qz : ℚ) * 2 := by
    have he : (qz : ℚ) * ((kk - T : ℤ) : ℚ) = jsMod x (qz : ℚ) - a := by rw [hrj]; ring
    rw [he]
    linarith
  have hdown : -((qz : ℚ) * 2) < (qz : ℚ) * ((kk - T : ℤ) : ℚ) := by
    have he : (qz : ℚ) * ((kk - T : ℤ) : ℚ) = jsMod x (qz : ℚ) - a := by rw [hrj]; ring
    rw [he]
    linarith
  have hjcases : kk - T = -1 ∨ kk - T = 0 ∨ kk - T = 1 := by
    have h2 : (((kk - T : ℤ)) : ℚ) < 2 := (mul_lt_mul_left hqQ).mp hup
    have h3 : ((-2 : ℚ)) < (((kk - T : ℤ)) : ℚ) := by
      have := (mul_lt_mul_left hqQ).mp (by linarith : (qz : ℚ) * (-2) < (qz : ℚ) * ((kk - T : ℤ) : ℚ))
      linarith
    have h2z : kk - T < 2 := by exact_mod_cast h2
    have h3z : (-2 : ℤ) < kk - T := by exact_mod_cast h3
    omega
  have hmf : mathFloor ((qz : ℚ) / 2) = (c : ℚ) := mathFloor_intCast_div_two qz
  simp only [symmetricValueModuloQ, hmf]
  rcases hjcases with hj1 | hj1 | hj1 <;> rw [hj1] at hrj
  · have hre : jsMod x (qz : ℚ) = a - (qz : ℚ) := by rw [hrj]; push_cast; ring
    rw [if_pos (by rw [hre]; linarith), if_pos (by rw [hre]; linarith), hre]
    ring
  · have hre : jsMod x (qz : ℚ) = a := by rw [hrj]; push_cast; ring
    by_cases hneg : jsMod x (qz : ℚ) < 0
    · rw [if_pos hneg, if_neg (by rw [hre]; linarith)]
      exact hre
    · rw [if_neg hneg, if_neg (by rw [hre]; linarith)]
      exact hre
  · have hre : jsMod x (qz : ℚ) = a + (qz : ℚ) := by rw [hrj]; push_cast; ring
    rw [if_neg (by rw [hre]; linarith), if_pos (by rw [hre]; linarith), hre]
    ring


theorem addMatrices_single (a b : Polynomial) (mq : ℚ) (f : Polynomial) :
    addMatrices [[a]] [[b]] mq f = .ok [[dividePolynomials
      ⟨(List.range (max a.coefficients.length b.coefficients.length)).map (fun idx =>
        symmetricValueModuloQ ((a.coefficients.getD idx 0) + (b.coefficients.getD idx 0)) mq)⟩
      f mq]] := by
  simp [addMatrices, List.range_succ]

theorem subtractMatrices_single (a b : Polynomial) (mq : ℚ) (f : Polynomial) :
    subtractMatrices [[a]] [[b]] mq f = .ok [[dividePolynomials
      ⟨(List.range (max a.coefficients.length b.coefficients.length)).map (fun idx =>
        symmetricValueModuloQ ((a.coefficients.getD idx 0) - (b.coefficients.getD idx 0)) mq)⟩
      f mq]] := by
  simp [subtractMatrices, List.range_succ]

theorem range_map_getD_eq_append (l : List ℚ) (L : ℕ) (hL : l.length ≤ L) :
    (List.range L).map (fun idx => l.getD idx 0) = l ++ List.replicate (L - l.length) 0 := by
  apply List.ext_getElem
  · simp
    omega
  · intro i h1 h2
    simp only [List.getElem_map, List.getElem_range]
    rw [List.getElem_append]
    by_cases hi : i < l.length
    · rw [dif_pos hi, List.getD_eq_getElem _ _ hi]
    · rw [dif_neg hi, List.getD_eq_default _ _ (by omega), List.getElem_replicate]


theorem dividePolynomials_short (p : Polynomial) (deg : ℕ) (mq : ℚ)
    (h : p.coefficients.length < deg + 1) :
    dividePolynomials p (kyberModulusPolynomial deg) mq = p := by
  unfold dividePolynomials
  rw [divideLoop_of_lt _ _ _ _ (by rw [length_kyberModulusPolynomial]; omega)]

theorem addSub_single_eval (qz : ℤ) (hq : 0 < qz) (hodd : qz % 2 = 1) (deg : ℕ)
    (a b : Polynomial) (ha_len : a.coefficients.length ≤ deg)
    (hb_len : b.coefficients.length ≤ deg)
    (hcent : ∀ y ∈ a.coefficients, isCentered (qz : ℚ) y) :
    (addMatrices [[a]] [[b]] (qz : ℚ) (kyberModulusPolynomial deg)).bind
      (fun s2 => subtractMatrices s2 [[b]] (qz : ℚ) (kyberModulusPolynomial deg)) =
    .ok [[⟨a.coefficients ++
      List.replicate (b.coefficients.length - a.coefficients.length) 0⟩]] := by
  have hc0 : (0 : ℤ) ≤ qz / 2 := by omega
  have hcentD : ∀ idx : ℕ, -(((qz / 2 : ℤ)) : ℚ) ≤ a.coefficients.getD idx 0 ∧
      a.coefficients.getD idx 0 ≤ (((qz / 2 : ℤ)) : ℚ) := by
    intro idx
    by_cases hidx : idx < a.coefficients.length
    · have hmem : a.coefficients.getD idx 0 ∈ a.coefficients := by
        rw [List.getD_eq_getElem _ _ hidx]
        exact List.getElem_mem hidx
      have := hcent _ hmem
      rw [isCentered, mathFloor_intCast_div_two] at this
      exact this
    · rw [List.getD_eq_default _ _ (by omega)]
      constructor
      · have : (0 : ℚ) ≤ ((qz / 2 : ℤ) : ℚ) := by exact_mod_cast hc0
        linarith
      · exact_mod_cast hc0
  rw [addMatrices_single,
    dividePolynomials_short _ deg _ (by simp; omega)]
  show subtractMatrices _ [[b]] _ _ = _
  rw [subtractMatrices_single]
  have hmax2 : max ((List.range (max a.coefficients.length b.coefficients.length)).map
      (fun idx => symmetricValueModuloQ
        ((a.coefficients.getD idx 0) + (b.coefficients.getD idx 0)) (qz : ℚ))).length
      b.coefficients.length = max a.coefficients.length b.coefficients.length := by
    simp
  rw [show (⟨(List.range (max a.coefficients.length b.coefficients.length)).map
      (fun idx => symmetricValueModuloQ
        ((a.coefficients.getD idx 0) + (b.coefficients.getD idx 0)) (qz : ℚ))⟩ :
      Polynomial).coefficients = (List.range (max a.coefficients.length
        b.coefficients.length)).map (fun idx => symmetricValueModuloQ
        ((a.coefficients.getD idx 0) + (b.coefficients.getD idx 0)) (qz : ℚ)) from rfl,
    hmax2, dividePolynomials_short _ deg _ (by simp; omega)]
  have hpoint : (List.range (max a.coefficients.length b.coefficients.length)).map
      (fun idx => symmetricValueModuloQ
        ((((List.range (max a.coefficients.length b.coefficients.length)).map
          (fun idx2 => symmetricValueModuloQ
            ((a.coefficients.getD idx2 0) + (b.coefficients.getD idx2 0)) (qz : ℚ))).getD idx 0) -
          (b.coefficients.getD idx 0)) (qz : ℚ)) =
      a.coefficients ++ List.replicate
        (b.coefficients.length - a.coefficients.length) 0 := by
    have hstep : ∀ idx ∈ List.range (max a.coefficients.length b.coefficients.length),
        symmetricValueModuloQ
          ((((List.range (max a.coefficients.length b.coefficients.length)).map
            (fun idx2 => symmetricValueModuloQ
              ((a.coefficients.getD idx2 0) + (b.coefficients.getD idx2 0)) (qz : ℚ))).getD idx 0) -
            (b.coefficients.getD idx 0)) (qz : ℚ) = a.coefficients.getD idx 0 := by
      intro idx hidx
      have hlt := List.mem_range.mp hidx
      rw [getD_range_map _ _ _, if_pos hlt]
      obtain ⟨t, ht⟩ := sym_shift_int
        ((a.coefficients.getD idx 0) + (b.coefficients.getD idx 0)) (qz : ℚ)
      rw [ht, show (a.coefficients.getD idx 0) + (b.coefficients.getD idx 0) -
        (qz : ℚ) * t - (b.coefficients.getD idx 0) =
        (a.coefficients.getD idx 0) + (qz : ℚ) * ((-t : ℤ) : ℚ) from by push_cast; ring]
      exact sym_add_multiple qz hq hodd _ (hcentD idx).1 (hcentD idx).2 (-t)
    rw [List.map_congr_left hstep,
      range_map_getD_eq_append _ _ (le_max_left _ _),
      show max a.coefficients.length b.coefficients.length - a.coefficients.length =
        b.coefficients.length - a.coefficients.length from by omega]
  rw [hpoint]


/-! ## C9: additive inverse after reduction -/

/-- C9 counterexample: with canonical `a = 1` (degree 0) and `b = x`
(degree 1) under `q = 3329` and modulus polynomial `x^2 + 1`,
`subtract(add(a, b), b)` returns the coefficient list `[1, 0]` — `a` padded
with a trailing zero up to `b`'s length, which the reduction does not trim —
and not `a = [1]` itself. -/
theorem addSubtract_not_id :
    (addMatrices [[⟨[1]⟩]] [[⟨[0, 1]⟩]] ((3329 : ℤ) : ℚ) (kyberModulusPolynomial 2)).bind
      (fun s2 => subtractMatrices s2 [[⟨[0, 1]⟩]] ((3329 : ℤ) : ℚ) (kyberModulusPolynomial 2)) =
      .ok [[⟨[1, 0]⟩]] ∧
    (Except.ok [[(⟨[1, 0]⟩ : Polynomial)]] : Except String PolynomialMatrix) ≠
      .ok [[⟨[1]⟩]] := by
  constructor
  · have h := addSub_single_eval 3329 (by decide) (by decide) 2 ⟨[1]⟩ ⟨[0, 1]⟩
      (by decide) (by decide)
      (by
        intro y hy
        simp only [List.mem_singleton] at hy
        subst hy
        rw [isCentered, mathFloor_intCast_div_two,
          show ((3329 : ℤ) / 2) = 1664 from by decide]
        constructor <;> norm_num)
    simpa using h
  · decide

/-- C9 amended: for any two canonical ring elements a and b under a fixed odd
positive modulus q and modulus polynomial `x^deg + 1` (coefficients of `a`
centered, degrees below `deg`), `subtract(add(a, b), b)` equals `a` padded
with trailing zeros up to `b`'s length — equal to `a` as a ring element, and
literally equal to `a` whenever `deg b ≤ deg a`; the reduction step performs
no division here and trims nothing. -/
theorem addSubtract_roundTrip (qz : ℤ) (hq : 0 < qz) (hodd : qz % 2 = 1) (deg : ℕ)
    (a b : Polynomial) (ha_len : a.coefficients.length ≤ deg)
    (hb_len : b.coefficients.length ≤ deg)
    (hcent : ∀ y ∈ a.coefficients, isCentered (qz : ℚ) y) :
    (addMatrices [[a]] [[b]] (qz : ℚ) (kyberModulusPolynomial deg)).bind
      (fun s2 => subtractMatrices s2 [[b]] (qz : ℚ) (kyberModulusPolynomial deg)) =
    .ok [[⟨a.coefficients ++
      List.replicate (b.coefficients.length - a.coefficients.length) 0⟩]] :=
  addSub_single_eval qz hq hodd deg a b ha_len hb_len hcent

/-- C9 witness: with `a = [5]`, `b = [3]` under `q = 11` and `x^1 + 1`, the
round trip returns `a` exactly. -/
theorem addSubtract_roundTrip_witness :
    (addMatrices [[⟨[5]⟩]] [[⟨[3]⟩]] ((11 : ℤ) : ℚ) (kyberModulusPolynomial 1)).bind
      (fun s2 => subtractMatrices s2 [[⟨[3]⟩]] ((11 : ℤ) : ℚ) (kyberModulusPolynomial 1)) =
    .ok [[⟨[5]⟩]] :=
  addSubtract_roundTrip 11 (by decide) (by decide) 1 ⟨[5]⟩ ⟨[3]⟩ (by decide) (by decide)
    (by
      intro y hy
      simp only [List.mem_singleton] at hy
      subst hy
      rw [isCentered, mathFloor_intCast_div_two, show ((11 : ℤ) / 2) = 5 from by decide]
      constructor <;> norm_num)


/-! ## C7 and C10: the message-level decryption structure and its
non-emptiness safety. -/

theorem decryptBlocksLoop_length (sKey : CrystalsKyberPrivateKey) :
    ∀ (blocks : List EncryptedBlock) (polys : List Polynomial),
      decryptBlocksLoop sKey blocks = .ok polys → polys.length = blocks.length := by
  intro blocks
  induction blocks with
  | nil =>
    intro polys h
    simp only [decryptBlocksLoop] at h
    cases h
    rfl
  | cons eb rest ih =>
    intro polys h
    simp only [decryptBlocksLoop] at h
    cases hd : crystalsKyber_decrypt eb sKey with
    | error e => rw [hd] at h; cases h
    | ok p =>
      rw [hd] at h
      cases ht : decryptBlocksLoop sKey rest with
      | error e => rw [ht] at h; cases h
      | ok tail =>
        rw [ht] at h
        cases h
        simp [ih tail ht]

theorem enumFrom_mapLast (f : Polynomial → Polynomial) :
    ∀ (l : List Polynomial) (j : ℕ),
      (List.enumFrom j l).map (fun p => if p.1 = j + l.length - 1 then f p.2 else p.2) =
        specMapLast f l
  | [], _ => by simp [specMapLast]
  | [x], j => by simp [specMapLast, List.enumFrom_cons]
  | x :: y :: ys, j => by
    have ih := enumFrom_mapLast f (y :: ys) (j + 1)
    simp only [List.enumFrom_cons, List.map_cons, List.length_cons] at ih ⊢
    rw [if_neg (by omega)]
    have hc : j + (ys.length + 1 + 1) - 1 = j + 1 + (ys.length + 1) - 1 := by omega
    simp only [hc]
    rw [ih]
    rfl

theorem enum_mapLast (f : Polynomial → Polynomial) (l : List Polynomial) :
    l.enum.map (fun p => if p.1 = l.length - 1 then f p.2 else p.2) = specMapLast f l := by
  have h := enumFrom_mapLast f l 0
  simpa using h

/-- On any non-empty ciphertext whose per-block decryptions succeed,
message-level decryption is the per-block loop followed by the decoder's tail
treatment (`processTail`) and the text decoding. -/
theorem decryptMessage_ok_processTail (blocks : List EncryptedBlock)
    (sKey : CrystalsKyberPrivateKey) (polys : List Polynomial) (hne : blocks ≠ [])
    (hdec : decryptBlocksLoop sKey blocks = .ok polys) :
    crystalsKyber_decryptMessage blocks sKey =
      .ok (polynomialBlocksToText (processTail polys) n) := by
  have hlen := decryptBlocksLoop_length sKey blocks polys hdec
  have hpne : polys ≠ [] := by
    intro hcon
    subst hcon
    simp only [List.length_nil] at hlen
    exact hne (List.length_eq_zero.mp hlen.symm)
  obtain ⟨lastP, hlast⟩ : ∃ y, polys.getLast? = some y := by
    cases hp : polys.getLast? with
    | none => exact absurd (List.getLast?_eq_none.mp hp) hpne
    | some y => exact ⟨y, rfl⟩
  have hlastD : polys.getLastD ⟨[]⟩ = lastP := by
    rw [List.getLastD_eq_getLast?, hlast]
    rfl
  have hstep : crystalsKyber_decryptMessage blocks sKey =
      (match polys.getLast? with
      | none => Except.error typeErrorMsg
      | some lastPolynomial =>
        let allZeroes := lastPolynomial.coefficients.all (fun c => decide (c = 0))
        let pd := if allZeroes then polys.dropLast else polys
        Except.ok (polynomialBlocksToText
          (pd.enum.map (fun p =>
            if p.1 = pd.length - 1 then removePaddingFromPolynomialBlocks p.2 else p.2)) n)) := by
    unfold crystalsKyber_decryptMessage
    rw [hdec]
    rfl
  rw [hstep, hlast]
  simp only [enum_mapLast, processTail, hlastD]

/-- C7: for every non-empty ciphertext block sequence whose per-block
decryptions succeed, message-level decryption decrypts each block
independently (the loop `decryptBlocksLoop`), then drops the last decrypted
block if and only if its coefficients are all zero, applies padding removal
to the (now-)final block only, passes every preceding block unchanged, and
decodes the result to text. -/
theorem decryptMessage_structure (blocks : List EncryptedBlock)
    (sKey : CrystalsKyberPrivateKey) (polys : List Polynomial) (hne : blocks ≠ [])
    (hdec : decryptBlocksLoop sKey blocks = .ok polys) :
    crystalsKyber_decryptMessage blocks sKey =
      .ok (polynomialBlocksToText (specMapLast removePaddingFromPolynomialBlocks
        (if (polys.getLastD ⟨[]⟩).coefficients.all (fun c => decide (c = 0))
         then polys.dropLast else polys)) n) := by
  have h := decryptMessage_ok_processTail blocks sKey polys hne hdec
  simpa [processTail] using h

/-- C7 witness: a single trivially-shaped block decrypts (to the empty
polynomial), which the all-zero rule then drops. -/
theorem decryptMessage_structure_witness :
    crystalsKyber_decryptMessage [⟨[[⟨[]⟩]], [[⟨[]⟩]]⟩] ⟨[[⟨[]⟩]]⟩ =
      .ok (polynomialBlocksToText (specMapLast removePaddingFromPolynomialBlocks
        (if (([(⟨[]⟩ : Polynomial)]).getLastD ⟨[]⟩).coefficients.all
            (fun c => decide (c = 0))
         then ([(⟨[]⟩ : Polynomial)]).dropLast else [⟨[]⟩])) n) :=
  decryptMessage_structure [⟨[[⟨[]⟩]], [[⟨[]⟩]]⟩] ⟨[[⟨[]⟩]]⟩ [⟨[]⟩] (by decide) (by decide)

theorem addPadding_ne_nil (p : Polynomial) (blockSize : ℕ) :
    addPaddingToPolynomialBlocks p blockSize ≠ [] := by
  unfold addPaddingToPolynomialBlocks
  intro h
  exact absurd h (by simp)

theorem encryptBlocksLoop_length (pKey : CrystalsKyberPublicKey)
    (rnds : ℕ → EncryptRandomness) :
    ∀ (i : ℕ) (blocks : List Polynomial) (ct : List EncryptedBlock),
      encryptBlocksLoop pKey rnds i blocks = .ok ct → ct.length = blocks.length := by
  intro i blocks
  induction blocks generalizing i with
  | nil =>
    intro ct h
    simp only [encryptBlocksLoop] at h
    cases h
    rfl
  | cons p rest ih =>
    intro ct h
    simp only [encryptBlocksLoop] at h
    cases he : crystalsKyber_encrypt p pKey (rnds i) with
    | error e => rw [he] at h; cases h
    | ok eb =>
      rw [he] at h
      cases ht : encryptBlocksLoop pKey rnds (i + 1) rest with
      | error e => rw [ht] at h; cases h
      | ok tail =>
        rw [ht] at h
        cases h
        simp [ih (i + 1) tail ht]

/-- C10: (1) the padding scheme always emits at least one block, so (2) for
every input string the encryption side returns at least one ciphertext block
whenever it succeeds; (3) on every non-empty ciphertext sequence whose
per-block decryptions succeed, the unconditional read of the last decrypted
block is in bounds and message decryption returns a result; (4) on the empty
sequence that read faults (JavaScript's `TypeError`), so `decryptMessage` is
well-defined only on non-empty inputs. -/
theorem decryptMessage_safety :
    (∀ (text : List ℕ) (blockSize : ℕ), textToPolynomialBlocks text blockSize ≠ []) ∧
    (∀ (message : List ℕ) (pKey : CrystalsKyberPublicKey) (rnds : ℕ → EncryptRandomness)
      (ct : List EncryptedBlock),
      crystalsKyber_encryptMessage message pKey rnds = .ok ct → ct ≠ []) ∧
    (∀ (blocks : List EncryptedBlock) (sKey : CrystalsKyberPrivateKey)
      (polys : List Polynomial), blocks ≠ [] → decryptBlocksLoop sKey blocks = .ok polys →
      ∃ out, crystalsKyber_decryptMessage blocks sKey = .ok out) ∧
    (∀ sKey : CrystalsKyberPrivateKey,
      crystalsKyber_decryptMessage [] sKey = .error typeErrorMsg) := by
  have hblocks : ∀ (text : List ℕ) (blockSize : ℕ),
      textToPolynomialBlocks text blockSize ≠ [] := by
    intro text blockSize hcon
    unfold textToPolynomialBlocks bitsToBlocks at hcon
    rcases List.append_eq_nil.mp hcon with ⟨-, h2⟩
    exact addPadding_ne_nil _ _ h2
  refine ⟨hblocks, ?_, ?_, ?_⟩
  · intro message pKey rnds ct hok hctnil
    subst hctnil
    have hlen := encryptBlocksLoop_length pKey rnds 0 (textToPolynomialBlocks message n) [] hok
    exact hblocks message n (List.length_eq_zero.mp hlen.symm)
  · intro blocks sKey polys hne hdec
    exact ⟨_, decryptMessage_ok_processTail blocks sKey polys hne hdec⟩
  · intro sKey
    rfl

/-- C10 witness: a one-character message encodes to a non-empty block list,
and a concrete one-block ciphertext decrypts to a result. -/
theorem decryptMessage_safety_witness :
    textToPolynomialBlocks [72] 8 ≠ [] ∧
    (∃ out, crystalsKyber_decryptMessage [⟨[[⟨[]⟩]], [[⟨[]⟩]]⟩] ⟨[[⟨[]⟩]]⟩ = .ok out) :=
  ⟨decryptMessage_safety.1 [72] 8,
   decryptMessage_safety.2.2.1 [⟨[[⟨[]⟩]], [[⟨[]⟩]]⟩] ⟨[[⟨[]⟩]]⟩ [⟨[]⟩]
     (by decide) (by decide)⟩

/-! ## C1: the end-to-end round trip -/

theorem loops_roundTrip (pKey : CrystalsKyberPublicKey) (sKey : CrystalsKyberPrivateKey)
    (rnds : ℕ → EncryptRandomness) :
    ∀ (blocks : List Polynomial) (i0 : ℕ),
      (∀ j, j < blocks.length →
        (crystalsKyber_encrypt (blocks.getD j ⟨[]⟩) pKey (rnds (i0 + j))).bind
          (fun eb => crystalsKyber_decrypt eb sKey) = .ok (blocks.getD j ⟨[]⟩)) →
      ∃ ct, encryptBlocksLoop pKey rnds i0 blocks = .ok ct ∧
        decryptBlocksLoop sKey ct = .ok blocks := by
  intro blocks
  induction blocks with
  | nil => exact fun i0 _ => ⟨[], rfl, rfl⟩
  | cons p rest ih =>
    intro i0 hknown
    have h0 := hknown 0 (by simp)
    rw [Nat.add_zero] at h0
    simp only [List.getD_cons_zero] at h0
    obtain ⟨eb, he, hd⟩ : ∃ eb, crystalsKyber_encrypt p pKey (rnds i0) = .ok eb ∧
        crystalsKyber_decrypt eb sKey = .ok p := by
      cases he : crystalsKyber_encrypt p pKey (rnds i0) with
      | error msg => rw [he] at h0; cases h0
      | ok eb =>
        rw [he] at h0
        exact ⟨eb, rfl, h0⟩
    obtain ⟨ct, hct, hdct⟩ := ih (i0 + 1) (by
      intro j hj
      have := hknown (j + 1) (by simpa using Nat.succ_lt_succ hj)
      simpa [Nat.add_assoc, Nat.add_comm 1 j] using this)
    refine ⟨eb :: ct, ?_, ?_⟩
    · simp only [encryptBlocksLoop, he, hct]
      rfl
    · simp only [decryptBlocksLoop, hd, hdct]
      rfl

theorem byteToBits_length (b : ℕ) : (byteToBits b).length = 8 := by
  simp [byteToBits]

theorem flatMap_byteToBits_length (message : List ℕ) :
    (message.flatMap byteToBits).length = 8 * message.length := by
  induction message with
  | nil => rfl
  | cons b rest ih =>
    rw [List.flatMap_cons, List.length_append, byteToBits_length, ih]
    simp only [List.length_cons]
    omega

theorem flatten_length_dvd (blocks : List Polynomial)
    (h : ∀ p ∈ blocks, 8 ∣ p.coefficients.length) :
    8 ∣ (blocks.flatMap Polynomial.coefficients).length := by
  induction blocks with
  | nil => simp
  | cons p ps ih =>
    rw [List.flatMap_cons, List.length_append]
    exact Nat.dvd_add (h p (List.mem_cons_self p ps))
      (ih (fun p2 hp2 => h p2 (List.mem_cons_of_mem p hp2)))

theorem byteToBits_explicit (b : ℕ) :
    byteToBits b = [(((b >>> 7) &&& 1 : ℕ) : ℚ), (((b >>> 6) &&& 1 : ℕ) : ℚ),
      (((b >>> 5) &&& 1 : ℕ) : ℚ), (((b >>> 4) &&& 1 : ℕ) : ℚ),
      (((b >>> 3) &&& 1 : ℕ) : ℚ), (((b >>> 2) &&& 1 : ℕ) : ℚ),
      (((b >>> 1) &&& 1 : ℕ) : ℚ), (((b >>> 0) &&& 1 : ℕ) : ℚ)] := rfl

set_option maxRecDepth 8000 in
theorem byteOfBits_byteToBits (b : ℕ) (hb : b < 256) :
    byteOfBits (((b >>> 7) &&& 1 : ℕ) : ℚ) (((b >>> 6) &&& 1 : ℕ) : ℚ)
      (((b >>> 5) &&& 1 : ℕ) : ℚ) (((b >>> 4) &&& 1 : ℕ) : ℚ)
      (((b >>> 3) &&& 1 : ℕ) : ℚ) (((b >>> 2) &&& 1 : ℕ) : ℚ)
      (((b >>> 1) &&& 1 : ℕ) : ℚ) (((b >>> 0) &&& 1 : ℕ) : ℚ) = b := by
  have h : ∀ b2 : ℕ, b2 < 256 → byteOfBits (((b2 >>> 7) &&& 1 : ℕ) : ℚ)
      (((b2 >>> 6) &&& 1 : ℕ) : ℚ) (((b2 >>> 5) &&& 1 : ℕ) : ℚ)
      (((b2 >>> 4) &&& 1 : ℕ) : ℚ) (((b2 >>> 3) &&& 1 : ℕ) : ℚ)
      (((b2 >>> 2) &&& 1 : ℕ) : ℚ) (((b2 >>> 1) &&& 1 : ℕ) : ℚ)
      (((b2 >>> 0) &&& 1 : ℕ) : ℚ) = b2 := by decide
  exact h b hb

theorem bitsToBytes_flatMap (message : List ℕ) (h : ∀ b ∈ message, b < 256) :
    bitsToBytes (message.flatMap byteToBits) = message := by
  induction message with
  | nil => rfl
  | cons b rest ih =>
    rw [List.flatMap_cons, byteToBits_explicit, List.cons_append, List.cons_append,
      List.cons_append, List.cons_append, List.cons_append, List.cons_append,
      List.cons_append, List.cons_append, List.nil_append]
    show byteOfBits _ _ _ _ _ _ _ _ :: bitsToBytes (rest.flatMap byteToBits) = b :: rest
    rw [byteOfBits_byteToBits b (h b (List.mem_cons_self b rest)),
      ih (fun b2 hb2 => h b2 (List.mem_cons_of_mem b hb2))]

/-- The full codec round trip through the decoder's tail treatment: encoding,
then the all-zero drop, padding removal and per-block byte reassembly,
recovers the original byte string. -/
theorem textBlocks_decode (message : List ℕ) (hmsg : ∀ b ∈ message, b < 256) :
    polynomialBlocksToText (processTail (textToPolynomialBlocks message n)) n = message := by
  have hn : 0 < n := by decide
  have hn8 : (8 : ℕ) ∣ n := by decide
  unfold textToPolynomialBlocks bitsToBlocks
  set bits := message.flatMap byteToBits with hbits
  set st := bits.foldl (pushBit n) ([], []) with hst
  have hcur : st.2.length ≤ n := foldl_pushBit_currentLen n hn bits [] [] (by simp)
  have hflat : st.1.flatMap Polynomial.coefficients ++ st.2 = bits := by
    have h := foldl_pushBit_flatten n bits [] []
    simpa using h
  have hblockLens : ∀ p ∈ st.1, p.coefficients.length = n :=
    foldl_pushBit_blockLens n bits [] [] (by simp)
  have hdvdpre : ∀ p ∈ st.1, 8 ∣ p.coefficients.length := by
    intro p hp
    rw [hblockLens p hp]
    exact hn8
  have hbitslen : bits.length = 8 * message.length := flatMap_byteToBits_length message
  have hdvdcur : 8 ∣ st.2.length := by
    have h1 : 8 ∣ (st.1.flatMap Polynomial.coefficients).length := flatten_length_dvd _ hdvdpre
    have h2 : (st.1.flatMap Polynomial.coefficients).length + st.2.length = bits.length := by
      rw [← List.length_append, hflat]
    omega
  rcases processTail_addPadding st.1 st.2 n hn hcur with hpt | hpt
  · rw [hpt, polynomialBlocksToText_stream _ _ (by
      intro p hp
      rcases List.mem_append.mp hp with hp | hp
      · exact hdvdpre p hp
      · simp only [List.mem_singleton] at hp
        rw [hp]
        exact hdvdcur)]
    rw [List.flatMap_append]
    simp only [List.flatMap_cons, List.flatMap_nil, List.append_nil]
    rw [hflat, hbits]
    exact bitsToBytes_flatMap message hmsg
  · rw [hpt, polynomialBlocksToText_stream _ _ (by
      intro p hp
      rcases List.mem_append.mp hp with hp | hp
      · exact hdvdpre p hp
      · simp only [List.mem_cons, List.not_mem_nil, or_false] at hp
        rcases hp with hp | hp <;> rw [hp]
        · exact hdvdcur
        · simp)]
    rw [List.flatMap_append]
    simp only [List.flatMap_cons, List.flatMap_nil, List.append_nil]
    rw [hflat, hbits]
    exact bitsToBytes_flatMap message hmsg

/-- C1: for every ASCII string and every keypair produced by `generateKeys`
(sampling randomness explicit), whenever for each block the sampled noise is
small enough that every coefficient of the decryption polynomial
`d = v - sᵀu` rounds back to the bit that was encrypted — stated as the
encrypt-then-decrypt composition returning that block —
`decryptMessage (encryptMessage T, pk), sk) = T`; this covers the empty
string and strings whose bit length is an exact multiple of the block size. -/
theorem encryptDecrypt_roundTrip (message : List ℕ) (s e A : PolynomialMatrix)
    (keys : CrystalsKyberKeys) (rnds : ℕ → EncryptRandomness)
    (hmsg : ∀ b ∈ message, b < 256)
    (hkeys : crystalsKyber_generateKeys s e A = .ok keys)
    (hnoise : ∀ j, j < (textToPolynomialBlocks message n).length →
      (crystalsKyber_encrypt ((textToPolynomialBlocks message n).getD j ⟨[]⟩) keys.pKey
        (rnds j)).bind (fun eb => crystalsKyber_decrypt eb keys.sKey) =
      .ok ((textToPolynomialBlocks message n).getD j ⟨[]⟩)) :
    ∃ ct, crystalsKyber_encryptMessage message keys.pKey rnds = .ok ct ∧
      crystalsKyber_decryptMessage ct keys.sKey = .ok message := by
  obtain ⟨ct, hct, hdct⟩ := loops_roundTrip keys.pKey keys.sKey rnds
    (textToPolynomialBlocks message n) 0 (by
      intro j hj
      simpa using hnoise j hj)
  refine ⟨ct, hct, ?_⟩
  have hctne : ct ≠ [] := by
    intro hcon
    subst hcon
    have hlen := decryptBlocksLoop_length keys.sKey [] (textToPolynomialBlocks message n) hdct
    have hb : textToPolynomialBlocks message n = [] :=
      List.length_eq_zero.mp (by simpa using hlen)
    unfold textToPolynomialBlocks bitsToBlocks at hb
    exact addPadding_ne_nil _ _ (List.append_eq_nil.mp hb).2
  rw [decryptMessage_ok_processTail ct keys.sKey (textToPolynomialBlocks message n) hctne hdct]
  rw [textBlocks_decode message hmsg]
/-- An all-empty-polynomial matrix, used to build a concrete degenerate
keypair and noise for the round-trip witness. -/
def trivialMatrix (rows cols : ℕ) : PolynomialMatrix :=
  List.replicate rows (List.replicate cols ⟨[]⟩)

theorem exceptBind_ok {α β : Type} (a : α) (f : α → Except String β) :
    (Except.ok a >>= f) = f a := rfl

theorem exceptBind_ok2 {α β : Type} (a : α) (f : α → Except String β) :
    (Except.ok a : Except String α).bind f = f a := rfl

theorem ceil_neg_half : (⌈(-(1 / 2) : ℚ)⌉ : ℤ) = 0 := by
  rw [Int.ceil_neg, neg_eq_zero, Int.floor_eq_zero_iff]
  constructor <;> norm_num

theorem sym_zero_q : symmetricValueModuloQ 0 q = 0 := by
  simp only [symmetricValueModuloQ, jsMod, jsTrunc, mathFloor, q]
  norm_num

theorem sym_half_q : symmetricValueModuloQ (q / 2) q = -(q / 2) := by
  simp only [symmetricValueModuloQ, jsMod, jsTrunc, mathFloor, q]
  norm_num

theorem sym_neg_half_q : symmetricValueModuloQ (-(q / 2)) q = q / 2 := by
  simp only [symmetricValueModuloQ, jsMod, jsTrunc, mathFloor, q]
  norm_num [ceil_neg_half]

theorem reduce_zero_q : reduceToBinary 0 0 (q / 2) = 0 := by
  simp only [reduceToBinary, mathFloor, q]
  norm_num

theorem reduce_half_q : reduceToBinary (q / 2) 0 (q / 2) = 1 := by
  simp only [reduceToBinary, mathFloor, q,
    show |(3329 / 2 : ℚ)| = 3329 / 2 from abs_of_nonneg (by norm_num)]
  norm_num

theorem encryptMsgScaled_getD (msg : Polynomial) (idx : ℕ) :
    (encryptMsgScaled msg).coefficients.getD idx 0 =
      (msg.coefficients.getD idx 0) * (q / 2) := by
  calc (encryptMsgScaled msg).coefficients.getD idx 0
      = (msg.coefficients.map (fun c => c * (q / 2))).getD idx ((0 : ℚ) * (q / 2)) := by
        rw [encryptMsgScaled, zero_mul]
    _ = (msg.coefficients.getD idx 0) * (q / 2) := List.getD_map _ _ _

theorem addMatrices_empty_single (b : Polynomial) (hb : b.coefficients.length ≤ n) :
    addMatrices [[⟨[]⟩]] [[b]] q modulusPolynomial =
      .ok [[⟨(List.range b.coefficients.length).map
        (fun idx => symmetricValueModuloQ (b.coefficients.getD idx 0) q)⟩]] := by
  rw [addMatrices_single]
  simp only [List.getD_nil, zero_add, show (⟨[]⟩ : Polynomial).coefficients.length = 0 from rfl,
    Nat.zero_max]
  rw [show modulusPolynomial = kyberModulusPolynomial n from rfl,
    dividePolynomials_short _ n _ (by simp; omega)]

theorem subtractMatrices_empty_single (a : Polynomial) (ha : a.coefficients.length ≤ n) :
    subtractMatrices [[a]] [[⟨[]⟩]] q modulusPolynomial =
      .ok [[⟨(List.range a.coefficients.length).map
        (fun idx => symmetricValueModuloQ (a.coefficients.getD idx 0) q)⟩]] := by
  rw [subtractMatrices_single]
  simp only [List.getD_nil, sub_zero, show (⟨[]⟩ : Polynomial).coefficients.length = 0 from rfl,
    Nat.max_zero]
  rw [show modulusPolynomial = kyberModulusPolynomial n from rfl,
    dividePolynomials_short _ n _ (by simp; omega)]

/-- Encrypting under the all-empty keypair with all-empty noise yields an
all-empty `u` and a `v` that is exactly the scaled message, re-centered
coefficient by coefficient. -/
theorem trivial_encrypt (blk : Polynomial) (hlen : blk.coefficients.length ≤ n) :
    crystalsKyber_encrypt blk ⟨trivialMatrix 4 1, trivialMatrix 4 4⟩
      ⟨trivialMatrix 4 1, trivialMatrix 4 1, trivialMatrix 1 1⟩ =
      .ok ⟨trivialMatrix 4 1, [[⟨(List.range blk.coefficients.length).map
        (fun idx => symmetricValueModuloQ
          ((encryptMsgScaled blk).coefficients.getD idx 0) q)⟩]]⟩ := by
  have h1 : multiplyMatrices (transposeMatrix (trivialMatrix 4 4)) (trivialMatrix 4 1)
      q modulusPolynomial = .ok (trivialMatrix 4 1) := by decide
  have h2 : addMatrices (trivialMatrix 4 1) (trivialMatrix 4 1) q modulusPolynomial =
      .ok (trivialMatrix 4 1) := by decide
  have h3 : multiplyMatrices (transposeMatrix (trivialMatrix 4 1)) (trivialMatrix 4 1)
      q modulusPolynomial = .ok (trivialMatrix 1 1) := by decide
  have h4 : addMatrices (trivialMatrix 1 1) (trivialMatrix 1 1) q modulusPolynomial =
      .ok (trivialMatrix 1 1) := by decide
  have hmslen : (encryptMsgScaled blk).coefficients.length = blk.coefficients.length := by
    simp [encryptMsgScaled]
  have hv : addMatrices (trivialMatrix 1 1) [[encryptMsgScaled blk]] q modulusPolynomial =
      .ok [[⟨(List.range blk.coefficients.length).map
        (fun idx => symmetricValueModuloQ
          ((encryptMsgScaled blk).coefficients.getD idx 0) q)⟩]] := by
    rw [show trivialMatrix 1 1 = [[(⟨[]⟩ : Polynomial)]] from rfl,
      addMatrices_empty_single (encryptMsgScaled blk) (by omega), hmslen]
  simp only [crystalsKyber_encrypt, h1, h2, h3, h4, hv, exceptBind_ok]

/-- Decrypting an all-empty `u` under the all-empty secret key re-centers and
rounds `v`'s coefficients, nothing else. -/
theorem trivial_decrypt (vP : Polynomial) (hlenv : vP.coefficients.length ≤ n) :
    crystalsKyber_decrypt ⟨trivialMatrix 4 1, [[vP]]⟩ ⟨trivialMatrix 4 1⟩ =
      .ok ⟨((List.range vP.coefficients.length).map
        (fun idx => symmetricValueModuloQ (vP.coefficients.getD idx 0) q)).map
        (fun coeff => reduceToBinary coeff 0 (q / 2))⟩ := by
  have h3 : multiplyMatrices (transposeMatrix (trivialMatrix 4 1)) (trivialMatrix 4 1)
      q modulusPolynomial = .ok (trivialMatrix 1 1) := by decide
  have hsub : subtractMatrices [[vP]] (trivialMatrix 1 1) q modulusPolynomial =
      .ok [[⟨(List.range vP.coefficients.length).map
        (fun idx => symmetricValueModuloQ (vP.coefficients.getD idx 0) q)⟩]] := by
    rw [show trivialMatrix 1 1 = [[(⟨[]⟩ : Polynomial)]] from rfl]
    exact subtractMatrices_empty_single vP hlenv
  simp only [crystalsKyber_decrypt, h3, hsub, exceptBind_ok]

/-- With the all-empty degenerate keypair and noise, encrypting a 0/1 block
and decrypting it returns the block: the ciphertext carries exactly the
scaled message, each coefficient re-centered, and the final rounding maps
`±q/2` back to 1 and `0` back to 0. -/
theorem trivialKeys_block_roundTrip (blk : Polynomial)
    (hbits : ∀ c ∈ blk.coefficients, c = 0 ∨ c = 1)
    (hlen : blk.coefficients.length ≤ n) :
    (crystalsKyber_encrypt blk ⟨trivialMatrix 4 1, trivialMatrix 4 4⟩
      ⟨trivialMatrix 4 1, trivialMatrix 4 1, trivialMatrix 1 1⟩).bind
      (fun eb => crystalsKyber_decrypt eb ⟨trivialMatrix 4 1⟩) = .ok blk := by
  rw [trivial_encrypt blk hlen]
  rw [exceptBind_ok2]
  show crystalsKyber_decrypt _ _ = _
  have hvplen : ((⟨(List.range blk.coefficients.length).map
      (fun idx => symmetricValueModuloQ
        ((encryptMsgScaled blk).coefficients.getD idx 0) q)⟩ :
      Polynomial)).coefficients.length ≤ n := by
    simp only [List.length_map, List.length_range]
    exact hlen
  rw [trivial_decrypt _ hvplen]
  have hL : ((⟨(List.range blk.coefficients.length).map
      (fun idx => symmetricValueModuloQ
        ((encryptMsgScaled blk).coefficients.getD idx 0) q)⟩ :
      Polynomial)).coefficients.length = blk.coefficients.length := by
    simp only [List.length_map, List.length_range]
  rw [hL]
  have hfinal : ((List.range blk.coefficients.length).map
      (fun idx => symmetricValueModuloQ
        (((⟨(List.range blk.coefficients.length).map
          (fun idx => symmetricValueModuloQ
            ((encryptMsgScaled blk).coefficients.getD idx 0) q)⟩ :
          Polynomial)).coefficients.getD idx 0) q)).map
      (fun coeff => reduceToBinary coeff 0 (q / 2)) = blk.coefficients := by
    rw [List.map_map]
    have hpoint : ∀ idx ∈ List.range blk.coefficients.length,
        ((fun coeff => reduceToBinary coeff 0 (q / 2)) ∘
          (fun idx => symmetricValueModuloQ
            (((⟨(List.range blk.coefficients.length).map
              (fun idx => symmetricValueModuloQ
                ((encryptMsgScaled blk).coefficients.getD idx 0) q)⟩ :
              Polynomial)).coefficients.getD idx 0) q)) idx =
        blk.coefficients.getD idx 0 := by
      intro idx hidx
      have hlt := List.mem_range.mp hidx
      have hmem : blk.coefficients.getD idx 0 ∈ blk.coefficients := by
        rw [List.getD_eq_getElem _ _ hlt]
        exact List.getElem_mem hlt
      have hgd : ((⟨(List.range blk.coefficients.length).map
          (fun idx => symmetricValueModuloQ
            ((encryptMsgScaled blk).coefficients.getD idx 0) q)⟩ :
          Polynomial)).coefficients.getD idx 0 = symmetricValueModuloQ
          ((blk.coefficients.getD idx 0) * (q / 2)) q := by
        show ((List.range blk.coefficients.length).map
          (fun idx => symmetricValueModuloQ
            ((encryptMsgScaled blk).coefficients.getD idx 0) q)).getD idx 0 = _
        rw [getD_range_map, if_pos hlt, encryptMsgScaled_getD]
      show reduceToBinary (symmetricValueModuloQ _ q) 0 (q / 2) =
        blk.coefficients.getD idx 0
      rcases hbits _ hmem with hc | hc <;> rw [hgd, hc]
      · rw [zero_mul, sym_zero_q, sym_zero_q, reduce_zero_q]
      · rw [one_mul, sym_half_q, sym_neg_half_q, reduce_half_q]
    rw [List.map_congr_left hpoint,
      range_map_getD_eq_append _ _ (le_refl _)]
    simp
  rw [hfinal]
set_option maxRecDepth 16000 in
/-- C1 witness: the empty message round-trips through `encryptMessage` /
`decryptMessage` under the degenerate all-empty keypair with all-empty
noise (one padding-only block). -/
theorem encryptDecrypt_roundTrip_witness :
    ∃ ct, crystalsKyber_encryptMessage [] ⟨trivialMatrix 4 1, trivialMatrix 4 4⟩
        (fun _ => ⟨trivialMatrix 4 1, trivialMatrix 4 1, trivialMatrix 1 1⟩) = .ok ct ∧
      crystalsKyber_decryptMessage ct ⟨trivialMatrix 4 1⟩ = .ok [] := by
  have hblocks : textToPolynomialBlocks [] n = [⟨(1 : ℚ) :: List.replicate 255 0⟩] := by decide
  refine encryptDecrypt_roundTrip [] (trivialMatrix 4 1) (trivialMatrix 4 1) (trivialMatrix 4 4)
    ⟨⟨trivialMatrix 4 1, trivialMatrix 4 4⟩, ⟨trivialMatrix 4 1⟩⟩
    (fun _ => ⟨trivialMatrix 4 1, trivialMatrix 4 1, trivialMatrix 1 1⟩)
    (by decide) (by decide) ?_
  intro j hj
  rw [hblocks] at hj ⊢
  have hj0 : j = 0 := by
    simp only [List.length_cons, List.length_nil] at hj
    omega
  subst hj0
  exact trivialKeys_block_roundTrip ⟨(1 : ℚ) :: List.replicate 255 0⟩
    (by decide) (by decide)

end Kyber
